import Mathlib

/-!
# Verification of `pre_commit_hooks/requirements_txt_fixer.py`

A shallow embedding of the requirements.txt fixer.  Byte strings are
modelled as `List Nat` (one `Nat` per byte, values < 256 for real inputs;
Python byte-wise operations only ever compare bytes, so no modular
arithmetic is needed).  Python exceptions (failing `assert`s in
`Requirement.name` / `Requirement.__lt__`, `UnicodeDecodeError` from
`bytes.decode()`) are modelled by `Option`: a `none` result of
`fixRequirements` means the Python function raises instead of returning.

Layout: byte-string helpers, the `Requirement` data model, the parsing
loop of `fix_requirements`, the sort (Python's `sorted` is stable; for the
strict-weak-order comparator `Requirement.__lt__` any stable sort computes
the same list, so it is modelled by a stable insertion sort whose
comparator may fail), the serializer, and `fixRequirements` itself.
Theorems for the claims follow the definitions.
-/

/-- ASCII bytes of a string literal.  Only used with ASCII literals, where
the UTF-8 bytes are exactly the character codes. -/
def bs (s : String) : List Nat := s.data.map Char.toNat

/-- Python's byte whitespace (`\s` for `bytes` patterns, and the set
stripped by `bytes.strip()`): tab, LF, VT, FF, CR, space. -/
def isPySpace (b : Nat) : Bool := b = 9 || b = 10 || b = 11 || b = 12 || b = 13 || b = 32

/-- `line.strip() == b''`: every byte is whitespace. -/
def isBlankLine (l : List Nat) : Bool := l.all isPySpace

/-- `line.lstrip().startswith(b'#')`: first non-whitespace byte is `#` (35). -/
def isCommentLine (l : List Nat) : Bool := (l.dropWhile isPySpace).head? = some 35

/-- `bytes.lower()`: map ASCII `A`-`Z` to `a`-`z`. -/
def lowerB (l : List Nat) : List Nat :=
  l.map (fun b => if 65 ≤ b ∧ b ≤ 90 then b + 32 else b)

/-- `v.rstrip(b'\r\n')`: drop trailing CR/LF bytes. -/
def rstripRN (v : List Nat) : List Nat :=
  (v.reverse.dropWhile (fun b => b = 13 || b = 10)).reverse

/-- Byte-lexicographic `<`, Python's `bytes.__lt__`. -/
def lexLt : List Nat → List Nat → Bool
  | [], [] => false
  | [], _ :: _ => true
  | _ :: _, [] => false
  | a :: as, b :: bs => a < b || (a = b && lexLt as bs)

/-- Concatenation of a list of byte strings (`b''.join`). -/
def joinL (ls : List (List Nat)) : List Nat := ls.foldr (· ++ ·) []

/-- Iterating a binary file yields its lines, each keeping its trailing
`\n`; a final unterminated chunk is yielded without one.  `splitLinesAux`
carries the current (reversed) partial line. -/
def splitLinesAux : List Nat → List Nat → List (List Nat)
  | cur, [] => if cur = [] then [] else [cur.reverse]
  | cur, b :: rest =>
    if b = 10 then (b :: cur).reverse :: splitLinesAux [] rest
    else splitLinesAux (b :: cur) rest

def splitLines (content : List Nat) : List (List Nat) := splitLinesAux [] content

/-- `pat in l` for byte strings (substring test). -/
def containsSub (pat : List Nat) : List Nat → Bool
  | [] => decide (pat = [])
  | b :: rest => decide ((b :: rest).take pat.length = pat) || containsSub pat rest

/-- `l.partition(pat)[-1]`: the part after the first occurrence of `pat`
(empty when `pat` does not occur). -/
def afterFirst (pat : List Nat) : List Nat → List Nat
  | [] => []
  | b :: rest =>
    if (b :: rest).take pat.length = pat then (b :: rest).drop pat.length
    else afterFirst pat rest

/-- Does one of the `UNTIL_COMPARISON` alternatives `={2,3}|!=|~=|>=?|<=?`
match at the start of `l`?  (`==` covers `===`; `>` and `<` alone match.) -/
def cmpMatchAt (l : List Nat) : Bool :=
  match l with
  | 61 :: 61 :: _ => true
  | 33 :: 61 :: _ => true
  | 126 :: 61 :: _ => true
  | 62 :: _ => true
  | 60 :: _ => true
  | _ => false

/-- `UNTIL_COMPARISON.search`: index of the leftmost match, if any. -/
def cmpSearch : List Nat → Option Nat
  | [] => none
  | b :: rest => if cmpMatchAt (b :: rest) then some 0 else (cmpSearch rest).map (· + 1)

/-- `name[:m.start()]` when `UNTIL_COMPARISON` matches, else the whole name. -/
def untilComparison (tok : List Nat) : List Nat :=
  match cmpSearch tok with
  | none => tok
  | some i => tok.take i

def egg1 : List Nat := bs "#egg="
def egg2 : List Nat := bs "&egg="

/-- The `Requirement` object.  The Python class also memoizes an extracted
version string in `self.version`; that cache is never observed (only
`has_version()`'s boolean is), so it is not modelled. -/
structure Requirement where
  value : Option (List Nat)
  comments : List (List Nat)
deriving DecidableEq, Repr

/-- `Requirement.name`.  `none` models the `AssertionError` raised when
`UNTIL_SEP` (`[^;\s]+`) fails to match at the start of the lowered value.
The egg membership test is on the raw value, the partition on the lowered
name, exactly as in the source. -/
def nameOf (v : List Nat) : Option (List Nat) :=
  let nm := lowerB v
  if containsSub egg1 v then some (afterFirst egg1 nm)
  else if containsSub egg2 v then some (afterFirst egg2 nm)
  else
    let tok := nm.takeWhile (fun b => !(b = 59 || isPySpace b))
    if tok = [] then none
    else some (untilComparison tok)

/-- Character class `[A-Za-z0-9./:]` of `VERSION_MATCHER`. -/
def isVerChar (b : Nat) : Bool :=
  (48 ≤ b && b ≤ 57) || (65 ≤ b && b ≤ 90) || (97 ≤ b && b ≤ 122) ||
  b = 46 || b = 47 || b = 58

/-- After an operator: `\s*(?P<version>[A-Za-z0-9./:]+)` followed by the
end of the searched region.  Whitespace and version characters are
disjoint, so the split is deterministic. -/
def verTail (l : List Nat) : Bool :=
  let r := l.dropWhile isPySpace
  !r.isEmpty && r.all isVerChar

/-- Does some alternative of `(?:={2,3}|!=|~=|>=?|<=?|@)` match at the
start, with `verTail` succeeding on the remainder? -/
def verOpHere (l : List Nat) : Bool :=
  (match l with | 61 :: 61 :: 61 :: r => verTail r | _ => false) ||
  (match l with | 61 :: 61 :: r => verTail r | _ => false) ||
  (match l with | 33 :: 61 :: r => verTail r | _ => false) ||
  (match l with | 126 :: 61 :: r => verTail r | _ => false) ||
  (match l with | 62 :: 61 :: r => verTail r | _ => false) ||
  (match l with | 62 :: r => verTail r | _ => false) ||
  (match l with | 60 :: 61 :: r => verTail r | _ => false) ||
  (match l with | 60 :: r => verTail r | _ => false) ||
  (match l with | 64 :: r => verTail r | _ => false)

def hasVersionAt : List Nat → Bool
  | [] => false
  | b :: rest => verOpHere (b :: rest) || hasVersionAt rest

/-- `Requirement.has_version` / `extract_version() is not None`.
`re.search` with a `$` anchor (no MULTILINE) matches at the end of the
value or just before one trailing `\n`; no alternative of the pattern can
contain `\n`, so a value ending in `\n` is matched against its body.
`extract_version` returns `None` without searching when the value is
empty or unset. -/
def hasVersion (v : List Nat) : Bool :=
  if v = [] then false
  else hasVersionAt (if v.getLast? = some 10 then v.dropLast else v)

/-- Strict UTF-8 validity, as checked by Python's `bytes.decode()`. -/
def contB (b : Nat) : Bool := 128 ≤ b && b ≤ 191

def utf8Valid : List Nat → Bool
  | [] => true
  | b :: rest =>
    if b ≤ 127 then utf8Valid rest
    else match rest with
    | [] => false
    | c1 :: r1 =>
      if 194 ≤ b && b ≤ 223 then contB c1 && utf8Valid r1
      else match r1 with
      | [] => false
      | c2 :: r2 =>
        if b = 224 then (160 ≤ c1 && c1 ≤ 191) && contB c2 && utf8Valid r2
        else if (225 ≤ b && b ≤ 236) || b = 238 || b = 239 then
          contB c1 && contB c2 && utf8Valid r2
        else if b = 237 then (128 ≤ c1 && c1 ≤ 159) && contB c2 && utf8Valid r2
        else match r2 with
        | [] => false
        | c3 :: r3 =>
          if b = 240 then (144 ≤ c1 && c1 ≤ 191) && contB c2 && contB c3 && utf8Valid r3
          else if 241 ≤ b && b ≤ 243 then contB c1 && contB c2 && contB c3 && utf8Valid r3
          else if b = 244 then (128 ≤ c1 && c1 ≤ 143) && contB c2 && contB c3 && utf8Valid r3
          else false

/-- `Requirement.is_include`: `False` for an unset or empty value (before
any decoding); otherwise `self.value.decode().startswith('-r')`.  `none`
models the `UnicodeDecodeError` on invalid UTF-8.  A valid decoding starts
with `"-r"` iff the bytes start with `[45, 114]` (ASCII is preserved). -/
def isIncludeV (v : Option (List Nat)) : Option Bool :=
  match v with
  | none => some false
  | some l =>
    if l = [] then some false
    else if utf8Valid l then some (decide (l.take 2 = [45, 114]))
    else none

/-- `Requirement.is_complete`: the value is set and, after stripping
trailing CR/LF, does not end in a backslash (92). -/
def Requirement.isComplete (r : Requirement) : Bool :=
  match r.value with
  | none => false
  | some v => !((rstripRN v).getLast? = some 92)

/-- `Requirement.__lt__`.  `none` models an exception: the `assert` on
`self.value`, or a failing name extraction (`self.name` is evaluated first,
then `requirement.name`; either failing raises, so only the joint success
matters).  The marker tests short-circuit before any name is computed. -/
def ltReq (a b : Requirement) : Option Bool :=
  match a.value with
  | none => none
  | some va =>
    if va = [10] then some true
    else if b.value = some [10] then some false
    else
      match b.value with
      | none => none
      | some vb =>
        match nameOf va, nameOf vb with
        | some na, some nb => some (lexLt na nb)
        | _, _ => none

def PASS : Nat := 0
def FAIL : Nat := 1

def emptyReq : Requirement := ⟨none, []⟩

/-- One iteration of the scan loop of `fix_requirements`.  The accumulator
holds the requirement list in reverse (most recent first), matching
Python's append-at-end / mutate-last pattern. -/
def step (reqs : List Requirement) (line : List Nat) : List Requirement :=
  let reqs' :=
    match reqs with
    | [] => [emptyReq]
    | r :: _ => if r.isComplete then emptyReq :: reqs else reqs
  match reqs' with
  | [] => []
  | r :: rest =>
    if reqs'.length = 1 ∧ isBlankLine line then
      if r.comments ≠ [] ∧ (r.comments.headD []).head? = some 35 then
        { r with value := some [10] } :: rest
      else
        { r with comments := r.comments ++ [line] } :: rest
    else if isCommentLine line ∨ isBlankLine line then
      { r with comments := r.comments ++ [line] } :: rest
    else
      { r with value := some ((r.value.getD []) ++ line) } :: rest

/-- The scan phase: fold `step` over the lines, then restore original
(append) order. -/
def parseReqs (lines : List (List Nat)) : List Requirement :=
  (lines.foldl step []).reverse

/-- Pop a trailing comment-only requirement (`value is None`) as `rest`. -/
def popRest (reqs : List Requirement) : List Requirement × List (List Nat) :=
  match reqs.getLast? with
  | some r => if r.value = none then (reqs.dropLast, r.comments) else (reqs, [])
  | none => ([], [])

def blkLine : List Nat := bs "pkg-resources==0.0.0\n"

/-- The input lines with a `\n` appended to a final unterminated line. -/
def beforeLines (content : List Nat) : List (List Nat) :=
  let before := splitLines content
  match before.getLast? with
  | none => []
  | some l => if l.getLast? = some 10 then before else before.dropLast ++ [l ++ [10]]

/-- The requirement entries of a file after the scan, the trailing-comment
pop and the blacklist filter — the list handed to `sorted`. -/
def filteredReqs (content : List Nat) : List Requirement :=
  ((popRest (parseReqs (beforeLines content))).1).filter
    (fun r => !(r.value = some blkLine))

/-- The trailing comment block preserved unsorted at the end. -/
def restOf (content : List Nat) : List (List Nat) :=
  (popRest (parseReqs (beforeLines content))).2

/-- Insert `x` before the first element it compares strictly less than;
propagate a comparison failure.  With `sortM` below this is a stable sort:
Python's `sorted` is stable, and `__lt__` is a strict weak order on every
list `fix_requirements` sorts (at most one marker), so the stable result
is unique and this computes the same list as Timsort. -/
def insertM (x : Requirement) : List Requirement → Option (List Requirement)
  | [] => some [x]
  | y :: ys =>
    match ltReq x y with
    | none => none
    | some true => some (x :: y :: ys)
    | some false =>
      match insertM x ys with
      | none => none
      | some t => some (y :: t)

def sortM (l : List Requirement) : Option (List Requirement) :=
  l.foldlM (fun acc x => insertM x acc) []

/-- The serialization loop: for each sorted requirement emit its comments
then its value, and (under `require_version`) collect the entries with a
missing version.  `none` models the `assert requirement.value` on an unset
or empty value and the decode inside `is_include`.  A report item is
modelled by the raw entry bytes (the source appends
`value.decode().strip()`; only membership and emptiness of the report are
ever relied upon). -/
def serializeReqs (rv : Bool) : List Requirement → Option (List (List Nat) × List (List Nat))
  | [] => some ([], [])
  | r :: rs =>
    match r.value with
    | none => none
    | some v =>
      if v = [] then none
      else
        match (if rv then isIncludeV (some v) else some true) with
        | none => none
        | some inc =>
          let miss :=
            if rv ∧ inc = false ∧ hasVersion v = false then [v] else []
          match serializeReqs rv rs with
          | none => none
          | some (ls, ms) => some (r.comments ++ v :: ls, miss ++ ms)

/-- The observable result of `fix_requirements` on one file: the returned
outcome, the file bytes after the call, whether the file was rewritten,
and the missing-version report list. -/
structure FixResult where
  outcome : Nat
  output : List Nat
  written : Bool
  missing : List (List Nat)
deriving DecidableEq, Repr

/-- `fix_requirements`, as a function from the file's byte content and the
`require_version` flag to its observable result; `none` models a raised
exception.  The source computes `before_string` from the unmodified lines,
appends a terminator to a final unterminated line, returns `PASS` early
when the whole input is whitespace, scans, pops a trailing comment block,
filters the blacklisted entry, sorts, serializes, and finally reports
missing versions (outcome `FAIL`) and rewrites the file iff the serialized
bytes differ from the input (outcome `FAIL`). -/
def fixRequirements (content : List Nat) (rv : Bool) : Option FixResult :=
  if isBlankLine content then some ⟨PASS, content, false, []⟩
  else
    match sortM (filteredReqs content) with
    | none => none
    | some es =>
      match serializeReqs rv es with
      | none => none
      | some (ls, miss) =>
        let after := joinL (ls ++ restOf content)
        if after = content then
          some ⟨if miss = [] then PASS else FAIL, content, false, miss⟩
        else
          some ⟨FAIL, after, true, miss⟩

/-- `main`'s per-file console behaviour: `Sorting <path>` is printed iff
the per-file return value is truthy (`FAIL`). -/
def sortingPrinted (content : List Nat) (rv : Bool) : Option Bool :=
  (fixRequirements content rv).map (fun r => decide (r.outcome ≠ PASS))

/-!
## Regression checks

The model reproduces the repository's own test vectors
(`tests/requirements_txt_fixer_test.py`). -/

example : fixRequirements (bs "") false = some ⟨PASS, bs "", false, []⟩ := by decide

example : fixRequirements (bs "\n") false = some ⟨PASS, bs "\n", false, []⟩ := by decide

example : fixRequirements (bs "# intentionally empty\n") false =
    some ⟨PASS, bs "# intentionally empty\n", false, []⟩ := by decide

example : fixRequirements (bs "foo\n# comment at end\n") false =
    some ⟨PASS, bs "foo\n# comment at end\n", false, []⟩ := by decide

example : fixRequirements (bs "foo\nbar\n") false =
    some ⟨FAIL, bs "bar\nfoo\n", true, []⟩ := by decide

example : fixRequirements (bs "bar\nfoo\n") false =
    some ⟨PASS, bs "bar\nfoo\n", false, []⟩ := by decide

example : fixRequirements (bs "a\nc\nb") false =
    some ⟨FAIL, bs "a\nb\nc\n", true, []⟩ := by decide

example : fixRequirements (bs "#comment1\nfoo\n#comment2\nbar\n") false =
    some ⟨FAIL, bs "#comment2\nbar\n#comment1\nfoo\n", true, []⟩ := by decide

example : fixRequirements (bs "#comment\n\nfoo\nbar\n") false =
    some ⟨FAIL, bs "#comment\n\nbar\nfoo\n", true, []⟩ := by decide

example : fixRequirements (bs "foo\n\t#comment with indent\nbar\n") false =
    some ⟨FAIL, bs "\t#comment with indent\nbar\nfoo\n", true, []⟩ := by decide

example : fixRequirements (bs "\nfoo\nbar\n") false =
    some ⟨FAIL, bs "bar\n\nfoo\n", true, []⟩ := by decide

example : fixRequirements (bs "pyramid-foo==1\npyramid>=2\n") false =
    some ⟨FAIL, bs "pyramid>=2\npyramid-foo==1\n", true, []⟩ := by decide

example : fixRequirements (bs "ocflib\nDjango\nPyMySQL\n") false =
    some ⟨FAIL, bs "Django\nocflib\nPyMySQL\n", true, []⟩ := by decide

example : fixRequirements (bs "-e git+ssh://git_url@tag#egg=ocflib\nDjango\nPyMySQL\n") false =
    some ⟨FAIL, bs "Django\n-e git+ssh://git_url@tag#egg=ocflib\nPyMySQL\n", true, []⟩ := by
  decide

example : fixRequirements (bs "bar\npkg-resources==0.0.0\nfoo\n") false =
    some ⟨FAIL, bs "bar\nfoo\n", true, []⟩ := by decide

example : fixRequirements (bs "b==1.0.0\nc=2.0.0 \\\n --hash=sha256:abcd\na=3.0.0 \\\n  --hash=sha256:a1b1c1d1") false =
    some ⟨FAIL, bs "a=3.0.0 \\\n  --hash=sha256:a1b1c1d1\nb==1.0.0\nc=2.0.0 \\\n --hash=sha256:abcd\n", true, []⟩ := by
  decide

example : fixRequirements (bs "a=2.0.0 \\\n --hash=sha256:abcd\nb==1.0.0\n") false =
    some ⟨PASS, bs "a=2.0.0 \\\n --hash=sha256:abcd\nb==1.0.0\n", false, []⟩ := by decide

example : fixRequirements (bs "a==1\nbbbb\nc>=1\n") false =
    some ⟨PASS, bs "a==1\nbbbb\nc>=1\n", false, []⟩ := by decide

example : fixRequirements (bs "a==1\nbbbb~=2.0\nc>=1\n") true =
    some ⟨PASS, bs "a==1\nbbbb~=2.0\nc>=1\n", false, []⟩ := by decide

example : fixRequirements (bs "a\nbbbb~=2.0\nc>=1\n") true =
    some ⟨FAIL, bs "a\nbbbb~=2.0\nc>=1\n", false, [bs "a\n"]⟩ := by decide

example : hasVersion (bs "foo") = false := by decide

example : hasVersion (bs "baz>=1.2.3") = true := by decide

/-!
## Order lemmas for `lexLt` (Python's byte-string comparison) -/

theorem lexLt_irrefl (l : List Nat) : lexLt l l = false := by
  induction l with
  | nil => rfl
  | cons a as ih => simp [lexLt, ih]

theorem lexLt_total (a b : List Nat) (h1 : lexLt a b = false) (h2 : lexLt b a = false) :
    a = b := by
  induction a generalizing b with
  | nil => cases b with
    | nil => rfl
    | cons x xs => simp [lexLt] at h1
  | cons x xs ih =>
    cases b with
    | nil => simp [lexLt] at h2
    | cons y ys =>
      simp only [lexLt, Bool.or_eq_false_iff, Bool.and_eq_false_iff,
        decide_eq_false_iff_not] at h1 h2
      have hxy : x = y := by omega
      subst hxy
      rcases h1.2 with h | h
      · omega
      · rcases h2.2 with h' | h'
        · omega
        · exact congrArg (x :: ·) (ih ys h h')

theorem lexLt_trans (a b c : List Nat) (h1 : lexLt a b = true) (h2 : lexLt b c = true) :
    lexLt a c = true := by
  induction a generalizing b c with
  | nil =>
    cases b with
    | nil => simp [lexLt] at h1
    | cons y ys => cases c with
      | nil => simp [lexLt] at h2
      | cons z zs => simp [lexLt]
  | cons x xs ih =>
    cases b with
    | nil => simp [lexLt] at h1
    | cons y ys =>
      cases c with
      | nil => simp [lexLt] at h2
      | cons z zs =>
        simp only [lexLt, Bool.or_eq_true, Bool.and_eq_true, decide_eq_true_eq] at h1 h2 ⊢
        rcases h1 with h1 | ⟨hxy, h1⟩
        · rcases h2 with h2 | ⟨hyz, h2⟩
          · exact Or.inl (by omega)
          · exact Or.inl (by omega)
        · rcases h2 with h2 | ⟨hyz, h2⟩
          · exact Or.inl (by omega)
          · exact Or.inr ⟨by omega, ih ys zs h1 h2⟩

theorem lexLt_asymm (a b : List Nat) (h : lexLt a b = true) : lexLt b a = false := by
  by_contra hb
  have hb' : lexLt b a = true := by
    cases hba : lexLt b a with
    | false => exact absurd hba hb
    | true => rfl
  have := lexLt_trans a b a h hb'
  rw [lexLt_irrefl] at this
  exact Bool.false_ne_true this

/-- `¬ b < a` and `¬ c < b` give `¬ c < a`: the sortedness relation of the
comparator is transitive. -/
theorem lexLt_nle_trans (a b c : List Nat) (h1 : lexLt b a = false)
    (h2 : lexLt c b = false) : lexLt c a = false := by
  cases hab : lexLt a b with
  | false =>
    have hba := lexLt_total a b hab h1
    subst hba
    exact h2
  | true =>
    cases hca : lexLt c a with
    | false => rfl
    | true =>
      have h3 := lexLt_trans c a b hca hab
      rw [h2] at h3
      exact absurd h3 Bool.false_ne_true

/-!
## The comparator as an order -/

/-- The top-of-file marker test from `__lt__`. -/
def isMarkerReq (r : Requirement) : Bool := decide (r.value = some [10])

/-- `sortRel a b` says the sort may leave `a` before `b`: comparing `b < a`
returned `False` (not an exception, not `True`). -/
def sortRel (a b : Requirement) : Prop := ltReq b a = some false

theorem ltReq_marker_left (a b : Requirement) (h : a.value = some [10]) :
    ltReq a b = some true := by
  simp [ltReq, h]

theorem ltReq_value_left (a b : Requirement) (r : Bool) (h : ltReq a b = some r) :
    ∃ va, a.value = some va := by
  cases hav : a.value with
  | none => simp [ltReq, hav] at h
  | some va => exact ⟨va, rfl⟩

theorem ltReq_names (a b : Requirement) (va vb na nb : List Nat)
    (ha : a.value = some va) (hva : va ≠ [10]) (hb : b.value = some vb)
    (hvb : vb ≠ [10]) (hna : nameOf va = some na) (hnb : nameOf vb = some nb) :
    ltReq a b = some (lexLt na nb) := by
  simp [ltReq, ha, hva, hb, hvb, hna, hnb]

theorem ltReq_marker_right (a b : Requirement) (va : List Nat)
    (ha : a.value = some va) (hva : va ≠ [10]) (hb : b.value = some [10]) :
    ltReq a b = some false := by
  simp [ltReq, ha, hva, hb]

theorem ltReq_false_cases (a b : Requirement) (va : List Nat)
    (ha : a.value = some va) (h : ltReq a b = some false) :
    va ≠ [10] ∧
      (b.value = some [10] ∨
       ∃ vb na nb, b.value = some vb ∧ vb ≠ [10] ∧ nameOf va = some na ∧
         nameOf vb = some nb ∧ lexLt na nb = false) := by
  by_cases hm : va = [10]
  · simp [ltReq, ha, hm] at h
  · refine ⟨hm, ?_⟩
    by_cases hbm : b.value = some [10]
    · exact Or.inl hbm
    · cases hbv : b.value with
      | none => simp [ltReq, ha, hm, hbm, hbv] at h
      | some vb =>
        have hvb : vb ≠ [10] := by
          intro hh; exact hbm (hbv.trans (by rw [hh]))
        cases hna : nameOf va with
        | none => simp [ltReq, ha, hm, hbm, hbv, hvb, hna] at h
        | some na =>
          cases hnb : nameOf vb with
          | none => simp [ltReq, ha, hm, hbm, hbv, hvb, hna, hnb] at h
          | some nb =>
            refine Or.inr ⟨vb, na, nb, ?_, hvb, ?_, ?_, ?_⟩
            · rfl
            · rfl
            · exact hnb
            · simpa [ltReq, ha, hm, hbm, hbv, hvb, hna, hnb] using h

theorem ltReq_true_cases (a b : Requirement) (va : List Nat)
    (ha : a.value = some va) (h : ltReq a b = some true) :
    va = [10] ∨
      (va ≠ [10] ∧ ∃ vb na nb, b.value = some vb ∧ vb ≠ [10] ∧ nameOf va = some na ∧
        nameOf vb = some nb ∧ lexLt na nb = true) := by
  by_cases hm : va = [10]
  · exact Or.inl hm
  · refine Or.inr ⟨hm, ?_⟩
    by_cases hbm : b.value = some [10]
    · simp [ltReq, ha, hm, hbm] at h
    · cases hbv : b.value with
      | none => simp [ltReq, ha, hm, hbm, hbv] at h
      | some vb =>
        have hvb : vb ≠ [10] := by
          intro hh; exact hbm (hbv.trans (by rw [hh]))
        cases hna : nameOf va with
        | none => simp [ltReq, ha, hm, hbm, hbv, hvb, hna] at h
        | some na =>
          cases hnb : nameOf vb with
          | none => simp [ltReq, ha, hm, hbm, hbv, hvb, hna, hnb] at h
          | some nb =>
            refine ⟨vb, na, nb, ?_, hvb, ?_, ?_, ?_⟩
            · rfl
            · rfl
            · exact hnb
            · simpa [ltReq, ha, hm, hbm, hbv, hvb, hna, hnb] using h

/-- Transitivity of the sortedness relation. -/
theorem sortRel_trans (a b c : Requirement)
    (h1 : sortRel a b) (h2 : sortRel b c) : sortRel a c := by
  obtain ⟨vb, hbv⟩ := ltReq_value_left b a false h1
  obtain ⟨vc, hcv⟩ := ltReq_value_left c b false h2
  obtain ⟨hvb, hrest1⟩ := ltReq_false_cases b a vb hbv h1
  obtain ⟨hvc, hrest2⟩ := ltReq_false_cases c b vc hcv h2
  rcases hrest2 with hbm | ⟨vb2, nc, nb2, hbv2, hvb2, hnc, hnb2, hlt2⟩
  · exact absurd (Option.some_injective _ (hbv.symm.trans hbm)) hvb
  · have hvb2e : vb2 = vb := Option.some_injective _ (hbv2.symm.trans hbv)
    rw [hvb2e] at hnb2
    rcases hrest1 with ham | ⟨va, nb, na, hav, hva, hnb, hna, hlt1⟩
    · exact ltReq_marker_right c a vc hcv hvc ham
    · have hnbe : nb2 = nb := Option.some_injective _ (hnb2.symm.trans hnb)
      rw [hnbe] at hlt2
      have hres := ltReq_names c a vc va nc na hcv hvc hav hva hnc hna
      unfold sortRel
      rw [hres, lexLt_nle_trans na nb nc hlt1 hlt2]

instance : IsTrans Requirement sortRel := ⟨sortRel_trans⟩

/-- Flipping a strict comparison: if `x < y` returned `True` and not both
are markers (with set values), then `y < x` returns `False`. -/
theorem ltReq_flip (x y : Requirement) (vx vy : List Nat)
    (hx : x.value = some vx) (hy : y.value = some vy)
    (hm : ¬(vx = [10] ∧ vy = [10])) (h : ltReq x y = some true) :
    ltReq y x = some false := by
  rcases ltReq_true_cases x y vx hx h with hxm | ⟨hvx, vy2, nx, ny, hy2, hvy2, hnx, hny, hlt⟩
  · have hvy : vy ≠ [10] := fun hh => hm ⟨hxm, hh⟩
    exact ltReq_marker_right y x vy hy hvy (hx.trans (by rw [hxm]))
  · have hvye : vy2 = vy := Option.some_injective _ (hy2.symm.trans hy)
    rw [hvye] at hvy2 hny
    have hres := ltReq_names y x vy vx ny nx hy hvy2 hx hvx hny hnx
    rw [hres, lexLt_asymm nx ny hlt]

/-!
## Properties of the modelled stable sort -/

theorem insertM_perm (x : Requirement) (acc out : List Requirement)
    (h : insertM x acc = some out) : out.Perm (x :: acc) := by
  induction acc generalizing out with
  | nil =>
    simp only [insertM, Option.some_inj] at h
    subst h; exact List.Perm.refl _
  | cons y ys ih =>
    simp only [insertM] at h
    cases hlt : ltReq x y with
    | none => rw [hlt] at h; simp at h
    | some b =>
      rw [hlt] at h
      cases b with
      | true =>
        simp only [Option.some_inj] at h
        subst h; exact List.Perm.refl _
      | false =>
        cases ht : insertM x ys with
        | none => rw [ht] at h; simp at h
        | some t =>
          rw [ht] at h
          simp only [Option.some_inj] at h
          subst h
          exact ((ih t ht).cons y).trans (List.Perm.swap x y ys)

theorem insertM_head (x : Requirement) (acc out : List Requirement)
    (h : insertM x acc = some out) :
    out.head? = some x ∨ (acc ≠ [] ∧ out.head? = acc.head?) := by
  cases acc with
  | nil =>
    simp only [insertM, Option.some_inj] at h
    subst h; exact Or.inl rfl
  | cons y ys =>
    simp only [insertM] at h
    cases hlt : ltReq x y with
    | none => rw [hlt] at h; simp at h
    | some b =>
      rw [hlt] at h
      cases b with
      | true =>
        simp only [Option.some_inj] at h
        subst h; exact Or.inl rfl
      | false =>
        cases ht : insertM x ys with
        | none => rw [ht] at h; simp at h
        | some t =>
          rw [ht] at h
          simp only [Option.some_inj] at h
          subst h; exact Or.inr ⟨by simp, rfl⟩

theorem insertM_chain (x : Requirement) (vx : List Nat) (hx : x.value = some vx)
    (acc out : List Requirement)
    (hvals : ∀ y ∈ acc, ∃ vy, y.value = some vy)
    (hmk : vx = [10] → ∀ y ∈ acc, y.value ≠ some [10])
    (hacc : List.Chain' sortRel acc)
    (h : insertM x acc = some out) : List.Chain' sortRel out := by
  induction acc generalizing out with
  | nil =>
    simp only [insertM, Option.some_inj] at h
    subst h; exact List.chain'_singleton x
  | cons y ys ih =>
    obtain ⟨vy, hy⟩ := hvals y (List.mem_cons_self _ _)
    simp only [insertM] at h
    cases hlt : ltReq x y with
    | none => rw [hlt] at h; simp at h
    | some b =>
      rw [hlt] at h
      cases b with
      | true =>
        simp only [Option.some_inj] at h
        subst h
        refine List.chain'_cons.mpr ⟨?_, hacc⟩
        refine ltReq_flip x y vx vy hx hy ?_ hlt
        rintro ⟨hvx, hvy⟩
        exact (hmk hvx y (List.mem_cons_self _ _)) (hy.trans (by rw [hvy]))
      | false =>
        cases ht : insertM x ys with
        | none => rw [ht] at h; simp at h
        | some t =>
          rw [ht] at h
          simp only [Option.some_inj] at h
          subst h
          have hchain_t : List.Chain' sortRel t :=
            ih t (fun z hz => hvals z (List.mem_cons_of_mem y hz))
              (fun hvx z hz => hmk hvx z (List.mem_cons_of_mem y hz)) hacc.tail ht
          refine hchain_t.cons' ?_
          intro z hz
          rcases insertM_head x ys t ht with hh | ⟨hys, hh⟩
          · rw [hh] at hz
            simp only [Option.mem_def, Option.some_inj] at hz
            subst hz
            exact hlt
          · rw [hh] at hz
            exact (List.chain'_cons'.mp hacc).1 z hz

theorem insertM_last (x : Requirement) (acc : List Requirement)
    (h : ∀ y ∈ acc, ltReq x y = some false) :
    insertM x acc = some (acc ++ [x]) := by
  induction acc with
  | nil => simp [insertM]
  | cons y ys ih =>
    simp only [insertM]
    rw [h y (List.mem_cons_self _ _), ih (fun z hz => h z (List.mem_cons_of_mem y hz))]
    simp

/-- The key under which stability is stated: a non-marker entry keyed by
its derived name. -/
def keyIs (k : List Nat) (r : Requirement) : Bool :=
  match r.value with
  | some v => !decide (v = [10]) && decide (nameOf v = some k)
  | none => false

theorem keyIs_true_iff (k : List Nat) (r : Requirement) :
    keyIs k r = true ↔ ∃ v, r.value = some v ∧ v ≠ [10] ∧ nameOf v = some k := by
  cases hv : r.value with
  | none => simp [keyIs, hv]
  | some v => simp [keyIs, hv]

theorem insertM_filter_key (x : Requirement) (acc out : List Requirement)
    (k : List Nat) (hpw : List.Pairwise sortRel acc)
    (h : insertM x acc = some out) :
    out.filter (keyIs k) =
      acc.filter (keyIs k) ++ if keyIs k x then [x] else [] := by
  induction acc generalizing out with
  | nil =>
    simp only [insertM, Option.some_inj] at h
    subst h
    cases hk : keyIs k x <;> simp [List.filter, hk]
  | cons y ys ih =>
    simp only [insertM] at h
    cases hlt : ltReq x y with
    | none => rw [hlt] at h; simp at h
    | some b =>
      rw [hlt] at h
      cases b with
      | true =>
        simp only [Option.some_inj] at h
        subst h
        cases hk : keyIs k x with
        | false => simp [List.filter_cons, hk]
        | true =>
          obtain ⟨vx, hx, hvx, hnx⟩ := (keyIs_true_iff k x).mp hk
          have hempty : ∀ z ∈ y :: ys, keyIs k z = false := by
            rcases ltReq_true_cases x y vx hx hlt with hxm | ⟨_, vy, nx, ny, hy, hvy, hnx', hny, hlty⟩
            · exact absurd hxm hvx
            · have hnxk : nx = k := Option.some_injective _ (hnx'.symm.trans hnx)
              rw [hnxk] at hlty
              intro z hz
              rcases List.mem_cons.mp hz with hzy | hzys
              · subst hzy
                cases hkz : keyIs k z with
                | false => rfl
                | true =>
                  obtain ⟨vz, hz', hvz, hnz⟩ := (keyIs_true_iff k z).mp hkz
                  have : vz = vy := Option.some_injective _ (hz'.symm.trans hy)
                  rw [this] at hnz
                  have : ny = k := Option.some_injective _ (hny.symm.trans hnz)
                  rw [this] at hlty
                  rw [lexLt_irrefl] at hlty
                  exact absurd hlty Bool.false_ne_true
              · cases hkz : keyIs k z with
                | false => rfl
                | true =>
                  obtain ⟨vz, hz', hvz, hnz⟩ := (keyIs_true_iff k z).mp hkz
                  have hsr : sortRel y z := (List.pairwise_cons.mp hpw).1 z hzys
                  obtain ⟨hvz', hcases⟩ := ltReq_false_cases z y vz hz' hsr
                  rcases hcases with hym | ⟨vy2, nz, ny2, hy2, hvy2, hnz', hny2, hltz⟩
                  · exact absurd (Option.some_injective _ (hy.symm.trans hym)) hvy
                  · have : vy2 = vy := Option.some_injective _ (hy2.symm.trans hy)
                    rw [this] at hny2
                    have : ny2 = ny := Option.some_injective _ (hny2.symm.trans hny)
                    rw [this] at hltz
                    have : nz = k := Option.some_injective _ (hnz'.symm.trans hnz)
                    rw [this] at hltz
                    rw [hltz] at hlty
                    exact absurd hlty Bool.false_ne_true
          have : List.filter (keyIs k) (y :: ys) = [] :=
            List.filter_eq_nil_iff.mpr (fun z hz => by simp [hempty z hz])
          simp [List.filter_cons, hk, this]
      | false =>
        cases ht : insertM x ys with
        | none => rw [ht] at h; simp at h
        | some t =>
          rw [ht] at h
          simp only [Option.some_inj] at h
          subst h
          rw [List.filter_cons, List.filter_cons,
            ih t hpw.of_cons ht]
          cases keyIs k y <;> simp

theorem sortM_perm_go (l : List Requirement) :
    ∀ (acc es : List Requirement),
      List.foldlM (fun a x => insertM x a) acc l = some es → es.Perm (acc ++ l) := by
  induction l with
  | nil =>
    intro acc es h
    rw [List.foldlM_nil] at h
    simp only [pure, Option.some_inj] at h
    subst h; simp
  | cons x xs ih =>
    intro acc es h
    rw [List.foldlM_cons] at h
    obtain ⟨acc', h1, h2⟩ := Option.bind_eq_some.mp h
    have hp1 := insertM_perm x acc acc' h1
    have hp2 := ih acc' es h2
    exact hp2.trans ((hp1.append_right xs).trans List.perm_middle.symm)

theorem sortM_perm (l es : List Requirement) (h : sortM l = some es) : es.Perm l := by
  simpa using sortM_perm_go l [] es h

theorem sortM_go (l : List Requirement) :
    ∀ (acc es : List Requirement),
    List.foldlM (fun a x => insertM x a) acc l = some es →
    (∀ r ∈ acc, ∃ v, r.value = some v) →
    (∀ r ∈ l, ∃ v, r.value = some v) →
    List.Chain' sortRel acc →
    (l ++ acc).countP isMarkerReq ≤ 1 →
    List.Chain' sortRel es ∧
      ∀ k, es.filter (keyIs k) = acc.filter (keyIs k) ++ l.filter (keyIs k) := by
  induction l with
  | nil =>
    intro acc es h _ _ hacc _
    rw [List.foldlM_nil] at h
    simp only [pure, Option.some_inj] at h
    subst h
    exact ⟨hacc, fun k => by simp⟩
  | cons x xs ih =>
    intro acc es h hav hlv hacc hcnt
    rw [List.foldlM_cons] at h
    obtain ⟨acc', h1, h2⟩ := Option.bind_eq_some.mp h
    obtain ⟨vx, hx⟩ := hlv x (List.mem_cons_self _ _)
    have hpacc' : acc'.Perm (x :: acc) := insertM_perm x acc acc' h1
    simp only [List.cons_append, List.countP_cons, List.countP_append] at hcnt
    have hmk : vx = [10] → ∀ y ∈ acc, y.value ≠ some [10] := by
      intro hvx y hy hyv
      have hxm : isMarkerReq x = true := by simp [isMarkerReq, hx, hvx]
      have hym : isMarkerReq y = true := by simp [isMarkerReq, hyv]
      have hpos : 0 < acc.countP isMarkerReq :=
        List.countP_pos_iff.mpr ⟨y, hy, hym⟩
      rw [if_pos hxm] at hcnt
      omega
    have hchain' : List.Chain' sortRel acc' :=
      insertM_chain x vx hx acc acc' hav hmk hacc h1
    have hav' : ∀ r ∈ acc', ∃ v, r.value = some v := by
      intro r hr
      rcases List.mem_cons.mp (hpacc'.mem_iff.mp hr) with hrx | hra
      · exact hrx ▸ ⟨vx, hx⟩
      · exact hav r hra
    have hcnt'' : (xs ++ acc').countP isMarkerReq ≤ 1 := by
      have hpc : acc'.countP isMarkerReq = (x :: acc).countP isMarkerReq :=
        hpacc'.countP_eq isMarkerReq
      rw [List.countP_append, hpc, List.countP_cons]
      omega
    obtain ⟨hch, hfil⟩ := ih acc' es h2 hav'
      (fun r hr => hlv r (List.mem_cons_of_mem x hr)) hchain' hcnt''
    refine ⟨hch, fun k => ?_⟩
    have hfacc' : acc'.filter (keyIs k) =
        acc.filter (keyIs k) ++ if keyIs k x then [x] else [] :=
      insertM_filter_key x acc acc' k (List.chain'_iff_pairwise.mp hacc) h1
    rw [hfil k, hfacc', List.filter_cons, List.append_assoc]
    cases keyIs k x <;> simp

/-- Combined correctness of the modelled sort: permutation, sortedness
(`Chain'` of `sortRel`) and stability (name-keyed filters preserved). -/
theorem sortM_spec (l es : List Requirement) (h : sortM l = some es)
    (hv : ∀ r ∈ l, ∃ v, r.value = some v)
    (hm : l.countP isMarkerReq ≤ 1) :
    es.Perm l ∧ List.Chain' sortRel es ∧
      ∀ k, es.filter (keyIs k) = l.filter (keyIs k) := by
  refine ⟨sortM_perm l es h, ?_⟩
  have := sortM_go l [] es h (by simp) hv List.chain'_nil (by simpa using hm)
  simpa using this

/-- The marker, when present, ends up at the head of the sorted list. -/
theorem sortM_marker_head (l es : List Requirement) (h : sortM l = some es)
    (hchain : List.Chain' sortRel es) (m : Requirement) (hm : m ∈ l)
    (hmm : m.value = some [10]) :
    ∃ hd tl, es = hd :: tl ∧ hd.value = some [10] := by
  have hmem : m ∈ es := ((sortM_perm l es h).mem_iff).mpr hm
  cases hes : es with
  | nil => rw [hes] at hmem; simp at hmem
  | cons hd tl =>
    refine ⟨hd, tl, rfl, ?_⟩
    by_contra hhd
    rw [hes] at hmem
    rcases List.mem_cons.mp hmem with hmh | hmt
    · exact hhd (hmh ▸ hmm)
    · rw [hes] at hchain
      have hpw := List.chain'_iff_pairwise.mp hchain
      have hsr : sortRel hd m := (List.pairwise_cons.mp hpw).1 m hmt
      unfold sortRel at hsr
      rw [ltReq_marker_left m hd hmm] at hsr
      simp at hsr

theorem sortM_go_id (l : List Requirement) :
    ∀ acc : List Requirement,
    (∀ y ∈ acc, ∀ x ∈ l, ltReq x y = some false) →
    List.Pairwise sortRel l →
    List.foldlM (fun a x => insertM x a) acc l = some (acc ++ l) := by
  induction l with
  | nil => intro acc _ _; simp [List.foldlM_nil, pure]
  | cons x xs ih =>
    intro acc hcross hpw
    rw [List.foldlM_cons,
      insertM_last x acc (fun y hy => hcross y hy x (List.mem_cons_self _ _))]
    have hcross' : ∀ y ∈ acc ++ [x], ∀ z ∈ xs, ltReq z y = some false := by
      intro y hy z hz
      rcases List.mem_append.mp hy with hya | hyx
      · exact hcross y hya z (List.mem_cons_of_mem x hz)
      · have : y = x := by simpa using hyx
        subst this
        exact (List.pairwise_cons.mp hpw).1 z hz
    have hrec := ih (acc ++ [x]) hcross' hpw.of_cons
    have hbind : (some (acc ++ [x]) >>=
        fun s => List.foldlM (fun a x => insertM x a) s xs) =
        List.foldlM (fun a x => insertM x a) (acc ++ [x]) xs := rfl
    rw [hbind, hrec]
    simp

/-- Sorting an already-sorted list returns it unchanged. -/
theorem sortM_of_pairwise (l : List Requirement) (hpw : List.Pairwise sortRel l) :
    sortM l = some l := by
  have := sortM_go_id l [] (by simp) hpw
  simpa [sortM] using this

/-!
## Invariants of the scan phase -/

theorem isCommentLine_nonblank (l : List Nat) (h : isCommentLine l = true) :
    isBlankLine l = false := by
  by_contra hb
  have hb' : isBlankLine l = true := by
    cases hx : isBlankLine l with
    | false => exact absurd hx hb
    | true => rfl
  unfold isCommentLine at h
  unfold isBlankLine at hb'
  have hdrop : l.dropWhile isPySpace = [] := by
    rw [List.dropWhile_eq_nil_iff]
    intro x hx
    exact List.all_eq_true.mp hb' x hx
  rw [hdrop] at h
  simp at h

theorem blank_head_ne_hash (l : List Nat) (h : isBlankLine l = true) :
    l.head? ≠ some 35 := by
  intro hh
  cases l with
  | nil => simp at hh
  | cons a t =>
    simp only [List.head?_cons, Option.some_inj] at hh
    subst hh
    unfold isBlankLine at h
    have := List.all_eq_true.mp h 35 (List.mem_cons_self _ _)
    simp [isPySpace] at this

theorem append_nonblank_ne_marker (v line : List Nat)
    (h : isBlankLine line = false) : v ++ line ≠ [10] := by
  intro he
  cases v with
  | nil =>
    simp at he
    subst he
    simp [isBlankLine, isPySpace] at h
  | cons a t =>
    simp only [List.cons_append, List.cons_eq_cons] at he
    have : t ++ line = [] := he.2
    have hline : line = [] := (List.append_eq_nil.mp this).2
    subst hline
    simp [isBlankLine] at h

theorem isComplete_marker (r : Requirement) (h : r.value = some [10]) :
    r.isComplete = true := by
  simp only [Requirement.isComplete, h]
  decide

theorem isComplete_none (r : Requirement) (h : r.value = none) :
    r.isComplete = false := by
  simp [Requirement.isComplete, h]

theorem incomplete_value (r : Requirement) (v : List Nat) (hv : r.value = some v)
    (h : r.isComplete = false) : (rstripRN v).getLast? = some 92 := by
  simp only [Requirement.isComplete, hv, Bool.not_eq_true'] at h
  simpa using h

/-- How the requirement being modified by a `step` arises from the
accumulator: a fresh one on an empty list, the incomplete head, or a fresh
one pushed over a complete head. -/
def StepSrc (acc : List Requirement) (r : Requirement)
    (rest : List Requirement) : Prop :=
  (acc = [] ∧ r = emptyReq ∧ rest = []) ∨
  (∃ t, acc = r :: t ∧ r.isComplete = false ∧ rest = t) ∨
  (∃ r0 t, acc = r0 :: t ∧ r0.isComplete = true ∧ r = emptyReq ∧ rest = acc)

/-- Case description of one `step`: the modified requirement `r`, the
untouched remainder `rest`, and how they arise from the accumulator. -/
theorem step_desc (acc : List Requirement) (line : List Nat) :
    ∃ r rest, StepSrc acc r rest ∧
      step acc line =
        (if (r :: rest).length = 1 ∧ isBlankLine line then
          if r.comments ≠ [] ∧ (r.comments.headD []).head? = some 35 then
            { r with value := some [10] } :: rest
          else { r with comments := r.comments ++ [line] } :: rest
        else if isCommentLine line ∨ isBlankLine line then
          { r with comments := r.comments ++ [line] } :: rest
        else { r with value := some ((r.value.getD []) ++ line) } :: rest) := by
  cases acc with
  | nil => exact ⟨emptyReq, [], Or.inl ⟨rfl, rfl, rfl⟩, by simp [step]⟩
  | cons r0 t =>
    cases hc : r0.isComplete with
    | false => exact ⟨r0, t, Or.inr (Or.inl ⟨t, rfl, hc, rfl⟩), by simp [step, hc]⟩
    | true =>
      exact ⟨emptyReq, r0 :: t, Or.inr (Or.inr ⟨r0, t, rfl, hc, rfl, rfl⟩),
        by simp [step, hc]⟩

/-- Shape of a parsed value: unset, the `"\n"` marker, or the join of a
nonempty run of input lines, none of them comments or blanks, with every
proper prefix of the run still ending (modulo trailing CR/LF) in a
continuation backslash. -/
inductive ValShape (lines : List (List Nat)) : Option (List Nat) → Prop
  | unset : ValShape lines none
  | marker : ValShape lines (some [10])
  | run (vls : List (List Nat)) (hne : vls ≠ [])
      (hmem : ∀ x ∈ vls, x ∈ lines)
      (hgood : ∀ x ∈ vls, isCommentLine x = false ∧ isBlankLine x = false)
      (hpre : ∀ i : Nat, i + 1 < vls.length →
        (rstripRN (joinL (vls.take (i + 1)))).getLast? = some 92) :
      ValShape lines (some (joinL vls))

/-- The invariant carried through the scan loop.  The accumulator is in
reverse order: the head is the requirement currently being built. -/
structure ParsedInv (lines : List (List Nat)) (acc : List Requirement) : Prop where
  vals : ∀ r ∈ acc, ValShape lines r.value
  comms : ∀ r ∈ acc, ∀ c ∈ r.comments,
    c ∈ lines ∧ (isCommentLine c = true ∨ isBlankLine c = true)
  marker : ∀ r ∈ acc, r.value = some [10] →
    r.comments ≠ [] ∧ (r.comments.headD []).head? = some 35 ∧
      ∀ c ∈ r.comments, isBlankLine c = false
  markerPos : ∀ r ∈ acc.dropLast, r.value ≠ some [10]
  tailComplete : ∀ r ∈ acc.tail, r.isComplete = true
  firstComm : ∀ r0, acc = [r0] → (r0.comments.headD []).head? = some 35 →
    ∀ c ∈ r0.comments, isBlankLine c = false

theorem src_facts (lines : List (List Nat)) (acc : List Requirement)
    (r : Requirement) (rest : List Requirement)
    (hinv : ParsedInv lines acc) (hsrc : StepSrc acc r rest) :
    r.isComplete = false ∧
    (∀ x ∈ rest, x ∈ acc) ∧
    (∀ x ∈ rest.dropLast, x.value ≠ some [10]) ∧
    (∀ x ∈ rest, x.isComplete = true) ∧
    ValShape lines r.value ∧
    (∀ c ∈ r.comments, c ∈ lines ∧ (isCommentLine c = true ∨ isBlankLine c = true)) ∧
    r.value ≠ some [10] ∧
    (rest = [] → acc = [] ∧ r = emptyReq ∨ acc = [r]) := by
  rcases hsrc with ⟨ha, hr, hrest⟩ | ⟨t, ha, hc, hrest⟩ | ⟨r0, t, ha, hc, hr, hrest⟩
  · subst ha; subst hr; subst hrest
    refine ⟨isComplete_none _ rfl, by simp, by simp, by simp, ValShape.unset, by simp [emptyReq], ?_, fun _ => Or.inl ⟨rfl, rfl⟩⟩
    simp [emptyReq]
  · subst ha; subst hrest
    refine ⟨hc, fun x hx => List.mem_cons_of_mem r hx, ?_, ?_, hinv.vals r (List.mem_cons_self _ _), hinv.comms r (List.mem_cons_self _ _), ?_, ?_⟩
    · intro x hx
      cases ht : rest with
      | nil => rw [ht] at hx; simp at hx
      | cons a u =>
        refine hinv.markerPos x ?_
        rw [ht]
        rw [ht] at hx
        exact List.mem_cons_of_mem r (by simpa using hx)
    · intro x hx
      exact hinv.tailComplete x (by simpa using hx)
    · intro hm
      have hcm := isComplete_marker r hm
      rw [hcm] at hc
      exact Bool.noConfusion hc
    · intro ht; subst ht; exact Or.inr rfl
  · subst hr; subst hrest; subst ha
    refine ⟨isComplete_none _ rfl, fun x hx => hx, hinv.markerPos, ?_, ValShape.unset, by simp [emptyReq], by simp [emptyReq], ?_⟩
    · intro x hx
      rcases List.mem_cons.mp hx with hx0 | hxt
      · exact hx0 ▸ hc
      · exact hinv.tailComplete x (by simpa using hxt)
    · intro hcontra
      exact absurd hcontra (by simp)

theorem joinL_append (a b : List (List Nat)) : joinL (a ++ b) = joinL a ++ joinL b := by
  induction a with
  | nil => simp [joinL]
  | cons x xs ih =>
    simp only [List.cons_append, joinL, List.foldr_cons] at *
    rw [ih, List.append_assoc]

theorem joinL_single (l : List Nat) : joinL [l] = l := by simp [joinL]

theorem joinL_cons (x : List Nat) (ls : List (List Nat)) :
    joinL (x :: ls) = x ++ joinL ls := rfl

/-- Invariant preservation when the step appends a comment line. -/
theorem commentAppend_inv (lines : List (List Nat)) (acc : List Requirement)
    (r : Requirement) (rest : List Requirement) (line : List Nat)
    (hline : line ∈ lines)
    (hcb : isCommentLine line = true ∨ isBlankLine line = true)
    (hinv : ParsedInv lines acc) (hsrc : StepSrc acc r rest)
    (hq : rest = [] → isBlankLine line = true →
      r.comments = [] ∨ (r.comments.headD []).head? ≠ some 35) :
    ParsedInv lines ({ r with comments := r.comments ++ [line] } :: rest) := by
  obtain ⟨hF2, hFrest, hFdrop, hFtail, hFval, hFcom, hFnm, hFone⟩ :=
    src_facts lines acc r rest hinv hsrc
  constructor
  · intro x hx
    rcases List.mem_cons.mp hx with hx0 | hxr
    · subst hx0; exact hFval
    · exact hinv.vals x (hFrest x hxr)
  · intro x hx c hc
    rcases List.mem_cons.mp hx with hx0 | hxr
    · subst hx0
      rcases List.mem_append.mp hc with hco | hcl
      · exact hFcom c hco
      · have : c = line := by simpa using hcl
        subst this; exact ⟨hline, hcb⟩
    · exact hinv.comms x (hFrest x hxr) c hc
  · intro x hx hxm
    rcases List.mem_cons.mp hx with hx0 | hxr
    · subst hx0; exact absurd hxm hFnm
    · exact hinv.marker x (hFrest x hxr) hxm
  · intro x hx
    cases hrest : rest with
    | nil => rw [hrest] at hx; simp at hx
    | cons a u =>
      rw [hrest] at hx
      rw [List.dropLast_cons_of_ne_nil (by simp)] at hx
      rcases List.mem_cons.mp hx with hx0 | hxr
      · subst hx0; exact hFnm
      · exact hFdrop x (by rw [hrest]; exact hxr)
  · intro x hx
    exact hFtail x (by simpa using hx)
  · intro r0 heq hh c hc
    have hre : rest = [] := by
      cases rest with
      | nil => rfl
      | cons a u => simp at heq
    have hr0 : r0 = { r with comments := r.comments ++ [line] } := by
      rw [hre] at heq
      simpa using heq.symm
    subst hr0
    simp only at hh hc
    cases hco : r.comments with
    | nil =>
      rw [hco] at hh hc
      simp only [List.nil_append] at hh hc
      have hcl : c = line := by simpa using hc
      subst hcl
      have hlh : c.head? = some 35 := by simpa using hh
      by_contra hcb'
      have : isBlankLine c = true := by
        cases hx : isBlankLine c with
        | false => exact absurd hx hcb'
        | true => rfl
      exact blank_head_ne_hash c this hlh
    | cons c0 cs =>
      rw [hco] at hh
      have hh' : (r.comments.headD []).head? = some 35 := by
        rw [hco]; simpa using hh
      cases hbl : isBlankLine line with
      | true =>
        rcases hq hre hbl with hnil | hne
        · rw [hco] at hnil; simp at hnil
        · exact absurd hh' hne
      | false =>
        have hacc : acc = [] ∧ r = emptyReq ∨ acc = [r] := hFone hre
        rcases hacc with ⟨_, hre'⟩ | haccr
        · rw [hre'] at hco; simp [emptyReq] at hco
        · rcases List.mem_append.mp hc with hcold | hcline
          · exact hinv.firstComm r haccr hh' c hcold
          · have : c = line := by simpa using hcline
            subst this; exact hbl

/-- Invariant preservation when the step sets the top-of-file marker. -/
theorem markerSet_inv (lines : List (List Nat)) (acc : List Requirement)
    (r : Requirement)
    (hinv : ParsedInv lines acc) (hsrc : StepSrc acc r [])
    (hb2 : r.comments ≠ [] ∧ (r.comments.headD []).head? = some 35) :
    ParsedInv lines [{ r with value := some [10] }] := by
  obtain ⟨hF2, hFrest, hFdrop, hFtail, hFval, hFcom, hFnm, hFone⟩ :=
    src_facts lines acc r [] hinv hsrc
  have haccr : acc = [r] := by
    rcases hFone rfl with ⟨_, hre⟩ | h
    · rw [hre] at hb2; simp [emptyReq] at hb2
    · exact h
  have hnb : ∀ c ∈ r.comments, isBlankLine c = false :=
    hinv.firstComm r haccr hb2.2
  constructor
  · intro x hx
    have : x = { r with value := some [10] } := by simpa using hx
    subst this
    exact ValShape.marker
  · intro x hx c hc
    have : x = { r with value := some [10] } := by simpa using hx
    subst this
    exact hFcom c hc
  · intro x hx _
    have : x = { r with value := some [10] } := by simpa using hx
    subst this
    exact ⟨hb2.1, hb2.2, hnb⟩
  · intro x hx; simp at hx
  · intro x hx; simp at hx
  · intro r0 heq hh c hc
    have : r0 = { r with value := some [10] } := by simpa using heq.symm
    subst this
    exact hnb c hc

theorem ValShape_inv (lines : List (List Nat)) (v : Option (List Nat))
    (h : ValShape lines v) :
    v = none ∨ v = some [10] ∨
    ∃ vls, vls ≠ [] ∧ v = some (joinL vls) ∧ (∀ x ∈ vls, x ∈ lines) ∧
      (∀ x ∈ vls, isCommentLine x = false ∧ isBlankLine x = false) ∧
      (∀ i : Nat, i + 1 < vls.length →
        (rstripRN (joinL (vls.take (i + 1)))).getLast? = some 92) := by
  cases h with
  | unset => exact Or.inl rfl
  | marker => exact Or.inr (Or.inl rfl)
  | run vls hne hmem hgood hpre => exact Or.inr (Or.inr ⟨vls, hne, rfl, hmem, hgood, hpre⟩)

/-- The value of an incomplete-or-fresh requirement extended by a
non-comment, non-blank line keeps the `ValShape` invariant. -/
theorem valShape_append (lines : List (List Nat)) (r : Requirement) (line : List Nat)
    (hline : line ∈ lines) (hgc : isCommentLine line = false)
    (hgb : isBlankLine line = false) (hFval : ValShape lines r.value)
    (hFnm : r.value ≠ some [10]) (hF2 : r.isComplete = false) :
    ValShape lines (some ((r.value.getD []) ++ line)) := by
  rcases ValShape_inv lines r.value hFval with hv | hv | ⟨vls, hne, hv, hmem, hgood, hpre⟩
  · rw [hv]
    simp only [Option.getD_none, List.nil_append]
    have hres := @ValShape.run lines [line] (by simp)
      (by
        intro x hx
        have hxl : x = line := by simpa using hx
        subst hxl
        exact hline)
      (by
        intro x hx
        have hxl : x = line := by simpa using hx
        subst hxl
        exact ⟨hgc, hgb⟩)
      (by
        intro i hi
        simp at hi)
    rwa [joinL_single] at hres
  · exact absurd hv hFnm
  · rw [hv]
    simp only [Option.getD_some]
    have hres := @ValShape.run lines (vls ++ [line]) (by simp)
      (by
        intro x hx
        rcases List.mem_append.mp hx with hxa | hxb
        · exact hmem x hxa
        · have : x = line := by simpa using hxb
          subst this; exact hline)
      (by
        intro x hx
        rcases List.mem_append.mp hx with hxa | hxb
        · exact hgood x hxa
        · have : x = line := by simpa using hxb
          subst this; exact ⟨hgc, hgb⟩)
      (by
        intro i hi
        simp only [List.length_append, List.length_cons, List.length_nil] at hi
        have hle : i + 1 ≤ vls.length := by omega
        rw [List.take_append_of_le_length hle]
        rcases Nat.lt_or_ge (i + 1) vls.length with hlt | hge
        · exact hpre i hlt
        · have : i + 1 = vls.length := by omega
          rw [this, List.take_length]
          exact incomplete_value r (joinL vls) hv hF2)
    rwa [joinL_append, joinL_single] at hres

/-- Invariant preservation when the step appends to the value. -/
theorem valueAppend_inv (lines : List (List Nat)) (acc : List Requirement)
    (r : Requirement) (rest : List Requirement) (line : List Nat)
    (hline : line ∈ lines)
    (hgc : isCommentLine line = false) (hgb : isBlankLine line = false)
    (hinv : ParsedInv lines acc) (hsrc : StepSrc acc r rest) :
    ParsedInv lines ({ r with value := some ((r.value.getD []) ++ line) } :: rest) := by
  obtain ⟨hF2, hFrest, hFdrop, hFtail, hFval, hFcom, hFnm, hFone⟩ :=
    src_facts lines acc r rest hinv hsrc
  have hnm : (r.value.getD []) ++ line ≠ [10] := append_nonblank_ne_marker _ line hgb
  constructor
  · intro x hx
    rcases List.mem_cons.mp hx with hx0 | hxr
    · subst hx0
      exact valShape_append lines r line hline hgc hgb hFval hFnm hF2
    · exact hinv.vals x (hFrest x hxr)
  · intro x hx c hc
    rcases List.mem_cons.mp hx with hx0 | hxr
    · subst hx0; exact hFcom c hc
    · exact hinv.comms x (hFrest x hxr) c hc
  · intro x hx hxm
    rcases List.mem_cons.mp hx with hx0 | hxr
    · subst hx0
      simp only at hxm
      exact absurd (Option.some_injective _ hxm) hnm
    · exact hinv.marker x (hFrest x hxr) hxm
  · intro x hx
    cases hrest : rest with
    | nil => rw [hrest] at hx; simp at hx
    | cons a u =>
      rw [hrest] at hx
      rw [List.dropLast_cons_of_ne_nil (by simp)] at hx
      rcases List.mem_cons.mp hx with hx0 | hxr
      · subst hx0
        intro hxm
        simp only at hxm
        exact absurd (Option.some_injective _ hxm) hnm
      · exact hFdrop x (by rw [hrest]; exact hxr)
  · intro x hx
    exact hFtail x (by simpa using hx)
  · intro r0 heq hh c hc
    have hre : rest = [] := by
      cases rest with
      | nil => rfl
      | cons a u => simp at heq
    have hr0 : r0 = { r with value := some ((r.value.getD []) ++ line) } := by
      rw [hre] at heq
      simpa using heq.symm
    subst hr0
    simp only at hh hc
    rcases hFone hre with ⟨_, hremp⟩ | haccr
    · rw [hremp] at hh
      simp [emptyReq] at hh
    · exact hinv.firstComm r haccr hh c hc

/-- One scan step preserves the invariant. -/
theorem step_inv (lines : List (List Nat)) (acc : List Requirement)
    (line : List Nat) (hline : line ∈ lines) (hinv : ParsedInv lines acc) :
    ParsedInv lines (step acc line) := by
  obtain ⟨r, rest, hsrc, hstep⟩ := step_desc acc line
  rw [hstep]
  split_ifs with hb1 hb2 hb3
  · -- marker creation
    have hre : rest = [] := by
      have := hb1.1
      simpa using this
    subst hre
    exact markerSet_inv lines acc r hinv hsrc hb2
  · -- first-entry blank comment append
    refine commentAppend_inv lines acc r rest line hline (Or.inr hb1.2) hinv hsrc ?_
    intro _ _
    by_cases hco : r.comments = []
    · exact Or.inl hco
    · right
      intro hhd
      exact hb2 ⟨hco, hhd⟩
  · -- ordinary comment/blank append
    refine commentAppend_inv lines acc r rest line hline hb3 hinv hsrc ?_
    intro hre hbl
    exfalso
    exact hb1 ⟨by simp [hre], hbl⟩
  · -- value append
    have hgc : isCommentLine line = false := by
      cases hx : isCommentLine line with
      | false => rfl
      | true => exact absurd (Or.inl hx) hb3
    have hgb : isBlankLine line = false := by
      cases hx : isBlankLine line with
      | false => rfl
      | true => exact absurd (Or.inr hx) hb3
    exact valueAppend_inv lines acc r rest line hline hgc hgb hinv hsrc

/-!
## Claim C2: rewrite iff bytes differ; outcome FAIL iff differ or report -/

/-- Exhaustive description of what `fixRequirements` computes. -/
theorem fixRequirements_cases (content : List Nat) (rv : Bool) :
    (isBlankLine content = true ∧
      fixRequirements content rv = some ⟨PASS, content, false, []⟩) ∨
    (isBlankLine content = false ∧ sortM (filteredReqs content) = none ∧
      fixRequirements content rv = none) ∨
    (∃ es, isBlankLine content = false ∧ sortM (filteredReqs content) = some es ∧
      serializeReqs rv es = none ∧ fixRequirements content rv = none) ∨
    (∃ es ls miss, isBlankLine content = false ∧
      sortM (filteredReqs content) = some es ∧
      serializeReqs rv es = some (ls, miss) ∧
      ((joinL (ls ++ restOf content) = content ∧
        fixRequirements content rv =
          some ⟨if miss = [] then PASS else FAIL, content, false, miss⟩) ∨
       (joinL (ls ++ restOf content) ≠ content ∧
        fixRequirements content rv =
          some ⟨FAIL, joinL (ls ++ restOf content), true, miss⟩))) := by
  cases hb : isBlankLine content with
  | true => exact Or.inl ⟨rfl, by simp [fixRequirements, hb]⟩
  | false =>
    cases hs : sortM (filteredReqs content) with
    | none => exact Or.inr (Or.inl ⟨rfl, rfl, by simp [fixRequirements, hb, hs]⟩)
    | some es =>
      cases hser : serializeReqs rv es with
      | none =>
        exact Or.inr (Or.inr (Or.inl ⟨es, rfl, rfl, hser,
          by simp [fixRequirements, hb, hs, hser]⟩))
      | some p =>
        obtain ⟨ls, miss⟩ := p
        refine Or.inr (Or.inr (Or.inr ⟨es, ls, miss, rfl, rfl, hser, ?_⟩))
        by_cases hac : joinL (ls ++ restOf content) = content
        · exact Or.inl ⟨hac, by simp [fixRequirements, hb, hs, hser, hac]⟩
        · exact Or.inr ⟨hac, by simp [fixRequirements, hb, hs, hser, hac]⟩

/-- C2: `fix_requirements` rewrites the file iff the serialized bytes
differ from the input, and the outcome is `FAIL` iff the bytes differed or
the missing-version report is non-empty, `PASS` otherwise. -/
theorem claim_c2 (content : List Nat) (rv : Bool) (r : FixResult)
    (h : fixRequirements content rv = some r) :
    (r.written = true ↔ r.output ≠ content) ∧
    (r.outcome = FAIL ↔ (r.output ≠ content ∨ r.missing ≠ [])) ∧
    (r.outcome = PASS ↔ ¬(r.output ≠ content ∨ r.missing ≠ []))  := by
  rcases fixRequirements_cases content rv with
    ⟨hb, heq⟩ | ⟨hb, hs, heq⟩ | ⟨es, hb, hs, hser, heq⟩ |
    ⟨es, ls, miss, hb, hs, hser, ⟨hac, heq⟩ | ⟨hac, heq⟩⟩
  · rw [heq] at h
    have hr : r = ⟨PASS, content, false, []⟩ := by simpa using h.symm
    subst hr
    exact ⟨by simp, by simp [PASS, FAIL], by simp⟩
  · rw [heq] at h; simp at h
  · rw [heq] at h; simp at h
  · rw [heq] at h
    have hr : r = ⟨if miss = [] then PASS else FAIL, content, false, miss⟩ := by
      simpa using h.symm
    subst hr
    by_cases hm : miss = []
    · exact ⟨by simp, by simp [hm, PASS, FAIL], by simp [hm, PASS]⟩
    · exact ⟨by simp, by simp [if_neg hm, hm], by simp [if_neg hm, hm, PASS, FAIL]⟩
  · rw [heq] at h
    have hr : r = ⟨FAIL, joinL (ls ++ restOf content), true, miss⟩ := by
      simpa using h.symm
    subst hr
    exact ⟨by simpa using hac, by simp [hac], by simp [hac, PASS, FAIL]⟩

/-- C2 witness at a concrete input that is rewritten. -/
theorem claim_c2_witness :
    ((⟨FAIL, bs "bar\nfoo\n", true, []⟩ : FixResult).written = true ↔
      (⟨FAIL, bs "bar\nfoo\n", true, []⟩ : FixResult).output ≠ bs "foo\nbar\n") ∧
    ((⟨FAIL, bs "bar\nfoo\n", true, []⟩ : FixResult).outcome = FAIL ↔
      ((⟨FAIL, bs "bar\nfoo\n", true, []⟩ : FixResult).output ≠ bs "foo\nbar\n" ∨
        (⟨FAIL, bs "bar\nfoo\n", true, []⟩ : FixResult).missing ≠ [])) ∧
    ((⟨FAIL, bs "bar\nfoo\n", true, []⟩ : FixResult).outcome = PASS ↔
      ¬((⟨FAIL, bs "bar\nfoo\n", true, []⟩ : FixResult).output ≠ bs "foo\nbar\n" ∨
        (⟨FAIL, bs "bar\nfoo\n", true, []⟩ : FixResult).missing ≠ [])) :=
  claim_c2 (bs "foo\nbar\n") false ⟨FAIL, bs "bar\nfoo\n", true, []⟩ (by decide)

/-!
## Claim C8: when `main` prints `Sorting <path>` -/

/-- C8 counterexample: with `require_version`, a file whose content is
already normalized but has a missing version gets `Sorting <path>` printed
although nothing was rewritten. -/
theorem claim_c8_cex :
    sortingPrinted (bs "a\n") true = some true ∧
    fixRequirements (bs "a\n") true =
      some ⟨FAIL, bs "a\n", false, [bs "a\n"]⟩ :=
  ⟨by decide, by decide⟩

/-- C8 as amended: `Sorting <path>` is printed iff the per-file outcome is
`FAIL`, i.e. iff the content changed or the missing-version report is
non-empty — not iff the content changed. -/
theorem claim_c8_amended (content : List Nat) (rv : Bool) (r : FixResult)
    (h : fixRequirements content rv = some r) :
    sortingPrinted content rv = some true ↔
      (r.output ≠ content ∨ r.missing ≠ []) := by
  obtain ⟨_, h2, h3⟩ := claim_c2 content rv r h
  unfold sortingPrinted
  rw [h]
  simp only [Option.map_some', Option.some_inj, decide_eq_true_eq]
  constructor
  · intro hne
    by_contra hor
    exact hne (h3.mpr hor)
  · intro hor
    rw [h2.mpr hor]
    decide

/-- C8 witness: instantiation of the amended claim at the counterexample
input, where the report alone triggers the message. -/
theorem claim_c8_witness :
    sortingPrinted (bs "a\n") true = some true ↔
      ((⟨FAIL, bs "a\n", false, [bs "a\n"]⟩ : FixResult).output ≠ bs "a\n" ∨
       (⟨FAIL, bs "a\n", false, [bs "a\n"]⟩ : FixResult).missing ≠ []) :=
  claim_c8_amended (bs "a\n") true ⟨FAIL, bs "a\n", false, [bs "a\n"]⟩ (by decide)

/-!
## Claim C3: idempotence counterexamples -/

/-- C3 counterexamples.  First: an input ending in an unfinished
continuation; the first run sorts the incomplete entry to the front, and
the second run merges the following entry into it, changing the bytes and
returning FAIL.  Second: a whitespace-only (but not `"\n"`) blank line
attached as a comment; the second run turns it into the top-of-file marker
and serializes it as a bare `"\n"`, changing the bytes. -/
theorem claim_c3_cex :
    (fixRequirements (bs "#c\nb\na \\\n") false =
      some ⟨FAIL, bs "a \\\n#c\nb\n", true, []⟩) ∧
    (fixRequirements (bs "a \\\n#c\nb\n") false =
      some ⟨FAIL, bs "#c\na \\\nb\n", true, []⟩) ∧
    bs "#c\na \\\nb\n" ≠ bs "a \\\n#c\nb\n" ∧
    (fixRequirements (bs "z\n#c\n \na\n") false =
      some ⟨FAIL, bs "#c\n \na\nz\n", true, []⟩) ∧
    (fixRequirements (bs "#c\n \na\nz\n") false =
      some ⟨FAIL, bs "#c\n\na\nz\n", true, []⟩) ∧
    bs "#c\n\na\nz\n" ≠ bs "#c\n \na\nz\n" := by
  refine ⟨by decide, by decide, by decide, by decide, by decide, by decide⟩

/-!
## Claim C5: which entries are reported as missing a version -/

/-- C5 counterexample: the entry `a==1 --hash=sha256:abc` contains the
version operator `==` (with the version string `1`), yet it is reported as
missing, because the version pattern must match at the end of the entry. -/
theorem claim_c5_cex :
    fixRequirements (bs "a==1 --hash=sha256:abc\n") true =
      some ⟨FAIL, bs "a==1 --hash=sha256:abc\n", false,
        [bs "a==1 --hash=sha256:abc\n"]⟩ ∧
    containsSub (bs "==") (bs "a==1 --hash=sha256:abc\n") = true := by
  refine ⟨by decide, by decide⟩

/-!
## Claim C6: exceptions on malformed input -/

/-- C6 counterexample: on `b";x\nfoo\n"` the sort compares the two entries,
name extraction of `";x\n"` finds no `[^;\s]+` match, and the `assert`
raises — `fix_requirements` does not compute an outcome. -/
theorem claim_c6_cex : fixRequirements (bs ";x\nfoo\n") false = none := by decide

/-!
## Serializer shape -/

/-- The lines a sorted entry contributes to the output: its leading
comments, then its (joined) value. -/
def entryBlock (r : Requirement) : List (List Nat) := r.comments ++ [r.value.getD []]

def blocksOf : List Requirement → List (List Nat)
  | [] => []
  | r :: rs => entryBlock r ++ blocksOf rs

/-- Which value the serializer reports under `require_version`. -/
def missSel (rv : Bool) (r : Requirement) : Option (List Nat) :=
  match r.value with
  | some v =>
    if rv = true ∧ ¬(v.take 2 = [45, 114]) ∧ hasVersion v = false then some v else none
  | none => none

theorem isIncludeV_some (v : List Nat) (inc : Bool) (hne : v ≠ [])
    (h : isIncludeV (some v) = some inc) :
    inc = decide (v.take 2 = [45, 114]) := by
  simp only [isIncludeV] at h
  rw [if_neg hne] at h
  by_cases hu : utf8Valid v = true
  · rw [if_pos hu] at h
    exact (Option.some_inj.mp h).symm
  · rw [if_neg hu] at h
    simp at h

theorem serializeReqs_shape (rv : Bool) (es : List Requirement)
    (ls miss : List (List Nat)) (h : serializeReqs rv es = some (ls, miss)) :
    ls = blocksOf es ∧ miss = es.filterMap (missSel rv) ∧
      ∀ r ∈ es, ∃ v, r.value = some v ∧ v ≠ [] := by
  induction es generalizing ls miss with
  | nil =>
    simp only [serializeReqs, Option.some_inj, Prod.mk.injEq] at h
    exact ⟨h.1.symm, by simp [h.2.symm], by simp⟩
  | cons r rs ih =>
    obtain ⟨rval, rcom⟩ := r
    cases rval with
    | none => simp [serializeReqs] at h
    | some v =>
      simp only [serializeReqs] at h
      by_cases hne : v = []
      · rw [if_pos hne] at h; simp at h
      · rw [if_neg hne] at h
        cases hinc : (if rv then isIncludeV (some v) else some true) with
        | none => rw [hinc] at h; simp at h
        | some inc =>
          rw [hinc] at h
          cases hrec : serializeReqs rv rs with
          | none => rw [hrec] at h; simp at h
          | some p =>
            obtain ⟨ls', ms'⟩ := p
            rw [hrec] at h
            simp only [Option.some_inj, Prod.mk.injEq] at h
            obtain ⟨hls, hms⟩ := h
            obtain ⟨ihl, ihm, ihv⟩ := ih ls' ms' hrec
            refine ⟨?_, ?_, ?_⟩
            · rw [← hls, ihl]
              simp [blocksOf, entryBlock]
            · rw [← hms, ihm]
              have hsel : (if rv = true ∧ inc = false ∧ hasVersion v = false
                  then [v] else []) =
                  (missSel rv ⟨some v, rcom⟩).toList := by
                cases hrv : rv with
                | false => simp [missSel, hrv]
                | true =>
                  have hi : isIncludeV (some v) = some inc := by
                    rw [hrv] at hinc; simpa using hinc
                  have hinc' := isIncludeV_some v inc hne hi
                  by_cases ht : v.take 2 = [45, 114]
                  · have hit : inc = true := by rw [hinc']; simp [ht]
                    simp [missSel, hit, ht]
                  · have hif : inc = false := by rw [hinc']; simp [ht]
                    by_cases hver : hasVersion v = false
                    · simp [missSel, hif, ht, hver]
                    · simp [missSel, hif, ht, hver]
              rw [hsel]
              cases hms' : missSel rv (⟨some v, rcom⟩ : Requirement) with
              | none => simp [List.filterMap_cons, hms']
              | some w => simp [List.filterMap_cons, hms']
            · intro q hq
              rcases List.mem_cons.mp hq with hq0 | hqr
              · exact hq0 ▸ ⟨v, rfl, hne⟩
              · exact ihv q hqr

/-!
## Claim C4: the blacklisted entry is absent from the output -/

/-- C4: no entry of the sorted output list has the blacklisted value
`pkg-resources==0.0.0\n`; since the serializer emits exactly the sorted
entries, the entry is absent from the rewritten file wherever it occurred
in the input. -/
theorem claim_c4 (content : List Nat) (es : List Requirement)
    (hs : sortM (filteredReqs content) = some es) :
    ∀ q ∈ es, q.value ≠ some blkLine := by
  intro q hq
  have hmem : q ∈ filteredReqs content := (sortM_perm _ es hs).mem_iff.mp hq
  unfold filteredReqs at hmem
  have := List.of_mem_filter hmem
  simpa using this

/-- C4 witness: the blacklisted entry in the middle of a file is filtered
out — neither surviving sorted entry carries the blacklisted value. -/
theorem claim_c4_witness :
    (⟨some (bs "bar\n"), []⟩ : Requirement).value ≠ some blkLine ∧
    (⟨some (bs "foo\n"), []⟩ : Requirement).value ≠ some blkLine :=
  ⟨claim_c4 (bs "bar\npkg-resources==0.0.0\nfoo\n")
      [⟨some (bs "bar\n"), []⟩, ⟨some (bs "foo\n"), []⟩] (by decide)
      ⟨some (bs "bar\n"), []⟩ (by decide),
    claim_c4 (bs "bar\npkg-resources==0.0.0\nfoo\n")
      [⟨some (bs "bar\n"), []⟩, ⟨some (bs "foo\n"), []⟩] (by decide)
      ⟨some (bs "foo\n"), []⟩ (by decide)⟩

/-- C5 as amended: under `require_version` the report contains exactly the
entries that are not include directives (`-r` start) and whose content has
no version match at its end (the pattern is end-anchored, so an operator
and version elsewhere in the entry do not count). -/
theorem claim_c5_amended (es : List Requirement) (ls miss : List (List Nat))
    (hser : serializeReqs true es = some (ls, miss)) :
    miss = es.filterMap (missSel true) ∧
    ∀ q ∈ es, ∀ v, q.value = some v →
      (missSel true q = some v ↔
        ¬(v.take 2 = [45, 114]) ∧ hasVersion v = false) := by
  refine ⟨(serializeReqs_shape true es ls miss hser).2.1, ?_⟩
  intro q hq v hv
  by_cases hc : ¬(v.take 2 = [45, 114]) ∧ hasVersion v = false
  · simp only [missSel, hv]
    rw [if_pos ⟨trivial, hc.1, hc.2⟩]
    simp [hc.1, hc.2]
  · simp only [missSel, hv]
    rw [if_neg (by
      intro hcontra
      exact hc ⟨hcontra.2.1, hcontra.2.2⟩)]
    constructor
    · intro hnone
      exact absurd hnone (by simp)
    · intro hAB
      exact absurd hAB hc

/-- C5 witness: the counterexample entry is reported (its version pattern
does not match at the end), while an include entry would not be. -/
theorem claim_c5_witness :
    ([bs "a==1 --hash=sha256:abc\n"] =
      ([⟨some (bs "a==1 --hash=sha256:abc\n"), []⟩] : List Requirement).filterMap
        (missSel true)) ∧
    ∀ q ∈ ([⟨some (bs "a==1 --hash=sha256:abc\n"), []⟩] : List Requirement),
      ∀ v, q.value = some v →
      (missSel true q = some v ↔
        ¬(v.take 2 = [45, 114]) ∧ hasVersion v = false) :=
  claim_c5_amended [⟨some (bs "a==1 --hash=sha256:abc\n"), []⟩]
    [bs "a==1 --hash=sha256:abc\n"] [bs "a==1 --hash=sha256:abc\n"] (by decide)

/-!
## Claim C7: comments travel with their entry -/

/-- C7: the serialized output lines are exactly, for each sorted entry in
order, its leading comments (in original order) immediately followed by
its entry content; and the sorted entries are a permutation of the parsed
entries, so each entry keeps its own comment block through sorting. -/
theorem claim_c7 (content : List Nat) (rv : Bool) (es : List Requirement)
    (ls miss : List (List Nat))
    (hs : sortM (filteredReqs content) = some es)
    (hser : serializeReqs rv es = some (ls, miss)) :
    ls = blocksOf es ∧ es.Perm (filteredReqs content) :=
  ⟨(serializeReqs_shape rv es ls miss hser).1, sortM_perm _ es hs⟩

/-- C7 witness on the repository's own comment-attachment test vector. -/
theorem claim_c7_witness :
    [bs "#comment2\n", bs "bar\n", bs "#comment1\n", bs "foo\n"] =
      blocksOf [⟨some (bs "bar\n"), [bs "#comment2\n"]⟩,
        ⟨some (bs "foo\n"), [bs "#comment1\n"]⟩] ∧
    ([⟨some (bs "bar\n"), [bs "#comment2\n"]⟩,
      ⟨some (bs "foo\n"), [bs "#comment1\n"]⟩] : List Requirement).Perm
      (filteredReqs (bs "#comment1\nfoo\n#comment2\nbar\n")) :=
  claim_c7 (bs "#comment1\nfoo\n#comment2\nbar\n") false
    [⟨some (bs "bar\n"), [bs "#comment2\n"]⟩, ⟨some (bs "foo\n"), [bs "#comment1\n"]⟩]
    [bs "#comment2\n", bs "bar\n", bs "#comment1\n", bs "foo\n"] []
    (by decide) (by decide)

/-!
## Claim C9: a removed blacklisted entry takes its comments with it -/

/-- C9: on a non-whitespace input the output bytes are exactly the blocks
(comments, then value) of the sorted entries followed by the trailing
comment block, and no sorted entry is the blacklisted one — so the
comments attached to a removed `pkg-resources==0.0.0` entry appear
nowhere in the rewritten file. -/
theorem claim_c9 (content : List Nat) (rv : Bool) (r : FixResult)
    (hb : isBlankLine content = false)
    (h : fixRequirements content rv = some r) :
    ∃ es miss, sortM (filteredReqs content) = some es ∧
      (∀ q ∈ es, q.value ≠ some blkLine) ∧
      serializeReqs rv es = some (blocksOf es, miss) ∧
      r.output = joinL (blocksOf es ++ restOf content) := by
  rcases fixRequirements_cases content rv with
    ⟨hb', _⟩ | ⟨_, _, heq⟩ | ⟨es, _, _, _, heq⟩ |
    ⟨es, ls, miss, _, hs, hser, ⟨hac, heq⟩ | ⟨hac, heq⟩⟩
  · rw [hb'] at hb; exact absurd hb (by simp)
  · rw [heq] at h; simp at h
  · rw [heq] at h; simp at h
  · obtain ⟨hls, _, _⟩ := serializeReqs_shape rv es ls miss hser
    subst hls
    refine ⟨es, miss, hs, claim_c4 content es hs, hser, ?_⟩
    rw [heq] at h
    have hr := Option.some_inj.mp h
    rw [← hr]
    simpa using hac.symm
  · obtain ⟨hls, _, _⟩ := serializeReqs_shape rv es ls miss hser
    subst hls
    refine ⟨es, miss, hs, claim_c4 content es hs, hser, ?_⟩
    rw [heq] at h
    have hr := Option.some_inj.mp h
    rw [← hr]

/-- C9 witness: the blacklisted entry carries a comment; both vanish. -/
theorem claim_c9_witness :
    ∃ es miss, sortM (filteredReqs (bs "bar\n#gone\npkg-resources==0.0.0\nfoo\n")) = some es ∧
      (∀ q ∈ es, q.value ≠ some blkLine) ∧
      serializeReqs false es = some (blocksOf es, miss) ∧
      (⟨FAIL, bs "bar\nfoo\n", true, []⟩ : FixResult).output =
        joinL (blocksOf es ++ restOf (bs "bar\n#gone\npkg-resources==0.0.0\nfoo\n")) :=
  claim_c9 (bs "bar\n#gone\npkg-resources==0.0.0\nfoo\n") false
    ⟨FAIL, bs "bar\nfoo\n", true, []⟩ (by decide) (by decide)

/-!
## Line structure: `splitLines`, `joinL`, `beforeLines` -/

/-- A proper physical line: a `\n`-terminated byte string whose body
contains no `\n`. -/
def GoodLine (l : List Nat) : Prop :=
  ∃ core, l = core ++ [10] ∧ ∀ b ∈ core, b ≠ 10

theorem goodLine_marker : GoodLine [10] := ⟨[], rfl, by simp⟩

theorem goodline_of (l : List Nat) (hne : l ≠ [])
    (hint : ∀ b ∈ l.dropLast, b ≠ 10) (hend : l.getLast? = some 10) :
    GoodLine l := by
  refine ⟨l.dropLast, ?_, hint⟩
  have h1 := List.dropLast_append_getLast hne
  have h2 : l.getLast hne = 10 := by
    have h3 := List.getLast?_eq_getLast l hne
    rw [hend] at h3
    exact (Option.some_inj.mp h3).symm
  rw [h2] at h1
  exact h1.symm

theorem splitLinesAux_line (core : List Nat) (hc : ∀ b ∈ core, b ≠ 10)
    (r cur : List Nat) :
    splitLinesAux cur (core ++ 10 :: r) =
      (cur.reverse ++ core ++ [10]) :: splitLinesAux [] r := by
  induction core generalizing cur with
  | nil =>
    simp only [List.nil_append, splitLinesAux, if_pos rfl]
    simp
  | cons c cs ih =>
    have hcne : c ≠ 10 := hc c (List.mem_cons_self _ _)
    simp only [List.cons_append, splitLinesAux, if_neg hcne, List.append_eq]
    rw [ih (fun b hb => hc b (List.mem_cons_of_mem c hb)) (c :: cur)]
    simp

theorem splitLines_joinL (ls : List (List Nat)) (h : ∀ l ∈ ls, GoodLine l) :
    splitLines (joinL ls) = ls := by
  induction ls with
  | nil => rfl
  | cons l ls' ih =>
    obtain ⟨core, hl, hc⟩ := h l (List.mem_cons_self _ _)
    have hj : joinL (l :: ls') = core ++ 10 :: joinL ls' := by
      simp [joinL, hl]
    unfold splitLines
    rw [hj, splitLinesAux_line core hc (joinL ls') []]
    rw [List.reverse_nil, List.nil_append]
    have := ih (fun x hx => h x (List.mem_cons_of_mem l hx))
    unfold splitLines at this
    rw [this, ← hl]

theorem splitLinesAux_mem (rest : List Nat) :
    ∀ cur, (∀ b ∈ cur, b ≠ 10) →
    ∀ l ∈ splitLinesAux cur rest, l ≠ [] ∧ ∀ b ∈ l.dropLast, b ≠ 10 := by
  induction rest with
  | nil =>
    intro cur hcur l hl
    simp only [splitLinesAux] at hl
    by_cases hc : cur = []
    · rw [if_pos hc] at hl; simp at hl
    · rw [if_neg hc] at hl
      have : l = cur.reverse := by simpa using hl
      subst this
      refine ⟨by simpa using hc, fun b hb => ?_⟩
      have : b ∈ cur.reverse := List.mem_of_mem_dropLast hb
      exact hcur b (by simpa using this)
  | cons x r ih =>
    intro cur hcur l hl
    simp only [splitLinesAux] at hl
    by_cases hx : x = 10
    · rw [if_pos hx] at hl
      rcases List.mem_cons.mp hl with h0 | hrec
      · subst h0
        constructor
        · simp
        · subst hx
          rw [List.reverse_cons, List.dropLast_concat]
          intro b hb
          exact hcur b (by simpa using hb)
      · exact ih [] (by simp) l hrec
    · rw [if_neg hx] at hl
      refine ih (x :: cur) ?_ l hl
      intro b hb
      rcases List.mem_cons.mp hb with h0 | hbc
      · exact h0 ▸ hx
      · exact hcur b hbc

theorem splitLinesAux_dropLast_end (rest : List Nat) :
    ∀ cur, ∀ l ∈ (splitLinesAux cur rest).dropLast, l.getLast? = some 10 := by
  induction rest with
  | nil =>
    intro cur l hl
    simp only [splitLinesAux] at hl
    by_cases hc : cur = []
    · rw [if_pos hc] at hl; simp at hl
    · rw [if_neg hc] at hl; simp at hl
  | cons x r ih =>
    intro cur l hl
    simp only [splitLinesAux] at hl
    by_cases hx : x = 10
    · rw [if_pos hx] at hl
      cases hrec : splitLinesAux [] r with
      | nil => rw [hrec] at hl; simp at hl
      | cons y u =>
        rw [hrec] at hl
        rw [List.dropLast_cons_of_ne_nil (by simp)] at hl
        rcases List.mem_cons.mp hl with h0 | hd
        · subst h0
          subst hx
          rw [List.reverse_cons]
          simp
        · have := ih [] l
          rw [hrec] at this
          exact this hd
    · rw [if_neg hx] at hl
      exact ih (x :: cur) l hl

theorem getLast?_some_concat {α : Type} (l : List α) (a : α)
    (h : l.getLast? = some a) : ∃ init, l = init ++ [a] := by
  rcases List.eq_nil_or_concat l with rfl | ⟨init, b, rfl⟩
  · simp at h
  · rw [List.concat_eq_append, List.getLast?_concat] at h
    exact ⟨init, by rw [List.concat_eq_append, Option.some_inj.mp h]⟩

theorem beforeLines_eq (content : List Nat) :
    ((splitLines content).getLast? = none ∧ beforeLines content = []) ∨
    (∃ l0, (splitLines content).getLast? = some l0 ∧
      ((l0.getLast? = some 10 ∧ beforeLines content = splitLines content) ∨
       (l0.getLast? ≠ some 10 ∧
        beforeLines content = (splitLines content).dropLast ++ [l0 ++ [10]]))) := by
  cases hg : (splitLines content).getLast? with
  | none => exact Or.inl ⟨rfl, by simp [beforeLines, hg]⟩
  | some l0 =>
    by_cases he : l0.getLast? = some 10
    · exact Or.inr ⟨l0, rfl, Or.inl ⟨he, by simp [beforeLines, hg, he]⟩⟩
    · exact Or.inr ⟨l0, rfl, Or.inr ⟨he, by simp [beforeLines, hg, he]⟩⟩

theorem beforeLines_good (content : List Nat) :
    ∀ l ∈ beforeLines content, GoodLine l := by
  intro l hl
  have hmem : ∀ x ∈ splitLines content, x ≠ [] ∧ ∀ b ∈ x.dropLast, b ≠ 10 := by
    intro x hx
    exact splitLinesAux_mem content [] (by simp) x hx
  have hdl : ∀ x ∈ (splitLines content).dropLast, x.getLast? = some 10 :=
    splitLinesAux_dropLast_end content []
  rcases beforeLines_eq content with ⟨hg, heq⟩ | ⟨l0, hg, ⟨hend, heq⟩ | ⟨hend, heq⟩⟩
  · rw [heq] at hl; simp at hl
  · rw [heq] at hl
    obtain ⟨init, hinit⟩ := getLast?_some_concat _ l0 hg
    rcases (by rw [hinit] at hl; exact List.mem_append.mp hl :
        l ∈ init ∨ l ∈ [l0]) with hi | h0
    · have hdrop : l ∈ (splitLines content).dropLast := by
        rw [hinit, List.dropLast_concat]
        exact hi
      obtain ⟨hne, hint⟩ := hmem l (List.mem_of_mem_dropLast hdrop)
      exact goodline_of l hne hint (hdl l hdrop)
    · have hll : l = l0 := by simpa using h0
      subst hll
      obtain ⟨hne, hint⟩ := hmem l (hinit ▸ List.mem_append_right init (by simp))
      exact goodline_of l hne hint hend
  · rw [heq] at hl
    rcases List.mem_append.mp hl with hi | h0
    · have hdrop : l ∈ (splitLines content).dropLast := hi
      obtain ⟨hne, hint⟩ := hmem l (List.mem_of_mem_dropLast hdrop)
      exact goodline_of l hne hint (hdl l hdrop)
    · have hleq : l = l0 ++ [10] := by simpa using h0
      subst hleq
      refine ⟨l0, rfl, ?_⟩
      obtain ⟨init, hinit⟩ := getLast?_some_concat _ l0 hg
      obtain ⟨hne, hint⟩ := hmem l0 (hinit ▸ List.mem_append_right init (by simp))
      intro b hb
      have hdec := List.dropLast_append_getLast hne
      rcases (by rw [← hdec] at hb; exact List.mem_append.mp hb :
          b ∈ l0.dropLast ∨ b ∈ [l0.getLast hne]) with hbi | hbl
      · exact hint b hbi
      · have hbeq : b = l0.getLast hne := by simpa using hbl
        subst hbeq
        intro hbad
        refine hend ?_
        rw [List.getLast?_eq_getLast l0 hne, hbad]

/-!
## From the step invariant to the parsed requirement list -/

theorem parsedInv_nil (lines : List (List Nat)) : ParsedInv lines [] := by
  refine ⟨by simp, by simp, by simp, by simp, by simp, ?_⟩
  intro r0 h
  simp at h

theorem foldl_step_inv (lines : List (List Nat)) (l : List (List Nat))
    (hsub : ∀ x ∈ l, x ∈ lines) :
    ∀ acc : List Requirement, ParsedInv lines acc →
      ParsedInv lines (l.foldl step acc) := by
  induction l with
  | nil => intro acc hacc; exact hacc
  | cons x xs ih =>
    intro acc hacc
    rw [List.foldl_cons]
    exact ih (fun y hy => hsub y (List.mem_cons_of_mem x hy)) (step acc x)
      (step_inv lines acc x (hsub x (List.mem_cons_self _ _)) hacc)

theorem parse_acc_inv (lines : List (List Nat)) :
    ParsedInv lines (lines.foldl step []) :=
  foldl_step_inv lines lines (fun _ h => h) [] (parsedInv_nil lines)

theorem reverse_tail_eq {α : Type} (l : List α) :
    l.reverse.tail = l.dropLast.reverse := by
  rcases List.eq_nil_or_concat l with rfl | ⟨init, a, rfl⟩
  · rfl
  · rw [List.concat_eq_append]
    simp [List.dropLast_concat]

theorem reverse_dropLast_eq {α : Type} (l : List α) :
    l.reverse.dropLast = l.tail.reverse := by
  cases l with
  | nil => rfl
  | cons x t => simp [List.reverse_cons, List.dropLast_concat]

/-- Every parsed requirement's value has the `ValShape` invariant and its
comments are comment-or-blank input lines. -/
theorem parseReqs_mem_facts (lines : List (List Nat)) (r : Requirement)
    (h : r ∈ parseReqs lines) :
    ValShape lines r.value ∧
    (∀ c ∈ r.comments, c ∈ lines ∧ (isCommentLine c = true ∨ isBlankLine c = true)) ∧
    (r.value = some [10] →
      r.comments ≠ [] ∧ (r.comments.headD []).head? = some 35 ∧
        ∀ c ∈ r.comments, isBlankLine c = false) := by
  have hmem : r ∈ lines.foldl step [] := by
    unfold parseReqs at h
    simpa using h
  have hinv := parse_acc_inv lines
  exact ⟨hinv.vals r hmem, hinv.comms r hmem, hinv.marker r hmem⟩

/-- Only the first parsed requirement can be the top-of-file marker. -/
theorem parseReqs_tail_nomarker (lines : List (List Nat)) :
    ∀ r ∈ (parseReqs lines).tail, r.value ≠ some [10] := by
  intro r h
  unfold parseReqs at h
  rw [reverse_tail_eq] at h
  exact (parse_acc_inv lines).markerPos r (by simpa using h)

/-- Every parsed requirement but the last is complete. -/
theorem parseReqs_dropLast_complete (lines : List (List Nat)) :
    ∀ r ∈ (parseReqs lines).dropLast, r.isComplete = true := by
  intro r h
  unfold parseReqs at h
  rw [reverse_dropLast_eq] at h
  exact (parse_acc_inv lines).tailComplete r (by simpa using h)

theorem complete_value (r : Requirement) (h : r.isComplete = true) :
    ∃ v, r.value = some v := by
  cases hv : r.value with
  | none => rw [isComplete_none r hv] at h; exact Bool.noConfusion h
  | some v => exact ⟨v, rfl⟩

theorem tail_nomarker_countP (l : List Requirement)
    (h : ∀ r ∈ l.tail, r.value ≠ some [10]) :
    l.countP isMarkerReq ≤ 1 := by
  cases l with
  | nil => simp
  | cons r t =>
    have ht : t.countP isMarkerReq = 0 := by
      rw [List.countP_eq_zero]
      intro x hx
      simp only [isMarkerReq, decide_eq_true_eq]
      exact h x (by simpa using hx)
    rw [List.countP_cons, ht]
    by_cases hm : isMarkerReq r = true <;> simp [hm]

theorem popRest_fst_sublist (reqs : List Requirement) :
    (popRest reqs).1.Sublist reqs := by
  cases hg : reqs.getLast? with
  | none => simp [popRest, hg]
  | some r0 =>
    by_cases h0 : r0.value = none
    · simp only [popRest, hg, if_pos h0]
      exact List.dropLast_sublist reqs
    · simp only [popRest, hg, if_neg h0]
      exact List.Sublist.refl reqs

/-- After popping the trailing comment block, every remaining requirement
has a set value. -/
theorem popRest_fst_value (reqs : List Requirement)
    (hdrop : ∀ r ∈ reqs.dropLast, r.isComplete = true) :
    ∀ r ∈ (popRest reqs).1, ∃ v, r.value = some v := by
  cases hg : reqs.getLast? with
  | none => simp [popRest, hg]
  | some r0 =>
    by_cases h0 : r0.value = none
    · simp only [popRest, hg, if_pos h0]
      intro r hr
      exact complete_value r (hdrop r hr)
    · simp only [popRest, hg, if_neg h0]
      intro r hr
      obtain ⟨init, hinit⟩ := getLast?_some_concat _ r0 hg
      rcases (by rw [hinit] at hr; exact List.mem_append.mp hr :
          r ∈ init ∨ r ∈ [r0]) with hi | hl
      · refine complete_value r (hdrop r ?_)
        rw [hinit, List.dropLast_concat]
        exact hi
      · have hre : r = r0 := by simpa using hl
        subst hre
        cases hv : r.value with
        | none => exact absurd hv h0
        | some v => exact ⟨v, rfl⟩

/-- The trailing comment block consists of comment-or-blank input lines. -/
theorem restOf_facts (content : List Nat) :
    ∀ c ∈ restOf content,
      c ∈ beforeLines content ∧ (isCommentLine c = true ∨ isBlankLine c = true) := by
  intro c hc
  cases hg : (parseReqs (beforeLines content)).getLast? with
  | none => simp [restOf, popRest, hg] at hc
  | some r0 =>
    by_cases h0 : r0.value = none
    · simp only [restOf, popRest, hg, if_pos h0] at hc
      have hr0 : r0 ∈ parseReqs (beforeLines content) := by
        obtain ⟨init, hinit⟩ := getLast?_some_concat _ r0 hg
        rw [hinit]
        exact List.mem_append_right init (by simp)
      exact (parseReqs_mem_facts (beforeLines content) r0 hr0).2.1 c hc
    · simp [restOf, popRest, hg, if_neg h0] at hc

/-- The requirement list handed to the sort: every entry has a set,
nonempty value with the `ValShape` invariant, at most one is the marker,
and comments are comment-or-blank input lines. -/
theorem filteredReqs_facts (content : List Nat) :
    (∀ r ∈ filteredReqs content, ∃ v, r.value = some v) ∧
    (filteredReqs content).countP isMarkerReq ≤ 1 ∧
    (∀ r ∈ filteredReqs content, ValShape (beforeLines content) r.value ∧
      ∀ c ∈ r.comments,
        c ∈ beforeLines content ∧ (isCommentLine c = true ∨ isBlankLine c = true)) := by
  refine ⟨?_, ?_, ?_⟩
  · intro r hr
    have hr' : r ∈ (popRest (parseReqs (beforeLines content))).1 := by
      unfold filteredReqs at hr
      exact List.mem_of_mem_filter hr
    exact popRest_fst_value _ (parseReqs_dropLast_complete _) r hr'
  · have h1 : (filteredReqs content).Sublist (parseReqs (beforeLines content)) := by
      unfold filteredReqs
      exact (List.filter_sublist _).trans (popRest_fst_sublist _)
    calc (filteredReqs content).countP isMarkerReq
        ≤ (parseReqs (beforeLines content)).countP isMarkerReq :=
          h1.countP_le isMarkerReq
      _ ≤ 1 := tail_nomarker_countP _ (parseReqs_tail_nomarker _)
  · intro r hr
    have hr' : r ∈ parseReqs (beforeLines content) := by
      unfold filteredReqs at hr
      exact (popRest_fst_sublist _).mem (List.mem_of_mem_filter hr)
    obtain ⟨hval, hcom, _⟩ := parseReqs_mem_facts _ r hr'
    exact ⟨hval, hcom⟩

theorem isBlank_nil : isBlankLine ([] : List Nat) = true := rfl

/-- A set value is never the empty byte string. -/
theorem valShape_ne_nil (lines : List (List Nat)) (vopt : Option (List Nat))
    (h : ValShape lines vopt) (v : List Nat) (hv : vopt = some v) : v ≠ [] := by
  rcases ValShape_inv lines vopt h with h0 | h0 | ⟨vls, hne, h0, hmem, hgood, _⟩
  · rw [h0] at hv; exact absurd hv (by simp)
  · rw [h0] at hv
    rw [Option.some_inj.mp hv.symm]
    simp
  · rw [h0] at hv
    rw [Option.some_inj.mp hv.symm]
    cases vls with
    | nil => exact absurd rfl hne
    | cons x rest =>
      have hx : isBlankLine x = false := (hgood x (List.mem_cons_self _ _)).2
      have hxne : x ≠ [] := by
        intro hxe
        rw [hxe, isBlank_nil] at hx
        exact Bool.noConfusion hx
      simp only [joinL, List.foldr_cons]
      intro hj
      exact hxne (List.append_eq_nil.mp hj).1

/-!
## Claim C1: sort order, marker first, stability -/

/-- The ordering the specification states for consecutive output entries:
the left one is the top-of-file marker, or both names are defined and the
right one's is not byte-lexicographically smaller. -/
def specOrder (a b : Requirement) : Prop :=
  a.value = some [10] ∨
  ∃ va vb na nb, a.value = some va ∧ b.value = some vb ∧
    nameOf va = some na ∧ nameOf vb = some nb ∧ lexLt nb na = false

theorem sortRel_specOrder (a b : Requirement) (h : sortRel a b) : specOrder a b := by
  obtain ⟨vb, hbv⟩ := ltReq_value_left b a false h
  obtain ⟨hvb, hcases⟩ := ltReq_false_cases b a vb hbv h
  rcases hcases with ham | ⟨va, nb, na, hav, hva, hnb, hna, hlt⟩
  · exact Or.inl ham
  · exact Or.inr ⟨va, vb, na, nb, hav, hbv, hna, hnb, hlt⟩

/-- C1: the sorted entries are pairwise in `specOrder` (consecutive names
nondecreasing except a marker, which always compares first), a marker
present in the input list ends up at the head, and the sort is stable
(the subsequence of entries with any fixed derived name is unchanged). -/
theorem claim_c1 (content : List Nat) (es : List Requirement)
    (hs : sortM (filteredReqs content) = some es) :
    List.Chain' specOrder es ∧
    (∀ m ∈ filteredReqs content, m.value = some [10] →
      ∃ hd tl, es = hd :: tl ∧ hd.value = some [10]) ∧
    (∀ k, es.filter (keyIs k) = (filteredReqs content).filter (keyIs k)) := by
  obtain ⟨hv, hcnt, _⟩ := filteredReqs_facts content
  obtain ⟨hperm, hchain, hfil⟩ := sortM_spec _ es hs hv hcnt
  exact ⟨hchain.imp (fun {a b} h => sortRel_specOrder a b h),
    fun m hm hmm => sortM_marker_head _ es hs hchain m hm hmm, hfil⟩

/-- C1 witness: a file with a top-of-file marker and unsorted entries. -/
theorem claim_c1_witness :
    List.Chain' specOrder
      [⟨some [10], [bs "#c\n"]⟩, ⟨some (bs "bar\n"), []⟩, ⟨some (bs "foo\n"), []⟩] ∧
    (∀ m ∈ filteredReqs (bs "#c\n\nfoo\nbar\n"), m.value = some [10] →
      ∃ hd tl,
        ([⟨some [10], [bs "#c\n"]⟩, ⟨some (bs "bar\n"), []⟩,
          ⟨some (bs "foo\n"), []⟩] : List Requirement) = hd :: tl ∧
        hd.value = some [10]) ∧
    (∀ k, ([⟨some [10], [bs "#c\n"]⟩, ⟨some (bs "bar\n"), []⟩,
        ⟨some (bs "foo\n"), []⟩] : List Requirement).filter (keyIs k) =
      (filteredReqs (bs "#c\n\nfoo\nbar\n")).filter (keyIs k)) :=
  claim_c1 (bs "#c\n\nfoo\nbar\n")
    [⟨some [10], [bs "#c\n"]⟩, ⟨some (bs "bar\n"), []⟩, ⟨some (bs "foo\n"), []⟩]
    (by decide)

/-!
## Claim C6: totality on well-formed entries -/

theorem ltReq_isSome (x y : Requirement)
    (hx : ∃ v, x.value = some v ∧ (v = [10] ∨ (nameOf v).isSome = true))
    (hy : ∃ v, y.value = some v ∧ (v = [10] ∨ (nameOf v).isSome = true)) :
    (ltReq x y).isSome = true := by
  obtain ⟨vx, hxv, hxn⟩ := hx
  obtain ⟨vy, hyv, hyn⟩ := hy
  by_cases hmx : vx = [10]
  · rw [ltReq_marker_left x y (hxv.trans (by rw [hmx]))]
    rfl
  · by_cases hmy : vy = [10]
    · rw [ltReq_marker_right x y vx hxv hmx (hyv.trans (by rw [hmy]))]
      rfl
    · rcases hxn with hcx | hcx
      · exact absurd hcx hmx
      · rcases hyn with hcy | hcy
        · exact absurd hcy hmy
        · obtain ⟨nx, hnx⟩ := Option.isSome_iff_exists.mp hcx
          obtain ⟨ny, hny⟩ := Option.isSome_iff_exists.mp hcy
          rw [ltReq_names x y vx vy nx ny hxv hmx hyv hmy hnx hny]
          rfl

theorem insertM_isSome (x : Requirement) (acc : List Requirement)
    (hx : ∃ v, x.value = some v ∧ (v = [10] ∨ (nameOf v).isSome = true))
    (hacc : ∀ y ∈ acc, ∃ v, y.value = some v ∧ (v = [10] ∨ (nameOf v).isSome = true)) :
    (insertM x acc).isSome = true := by
  induction acc with
  | nil => rfl
  | cons y ys ih =>
    obtain ⟨b, hb⟩ := Option.isSome_iff_exists.mp
      (ltReq_isSome x y hx (hacc y (List.mem_cons_self _ _)))
    cases b with
    | true => simp [insertM, hb]
    | false =>
      have hrec := ih (fun z hz => hacc z (List.mem_cons_of_mem y hz))
      obtain ⟨t, ht⟩ := Option.isSome_iff_exists.mp hrec
      simp [insertM, hb, ht]

theorem sortM_isSome (l : List Requirement)
    (hl : ∀ r ∈ l, ∃ v, r.value = some v ∧ (v = [10] ∨ (nameOf v).isSome = true)) :
    (sortM l).isSome = true := by
  suffices hgen : ∀ acc : List Requirement,
      (∀ y ∈ acc, ∃ v, y.value = some v ∧ (v = [10] ∨ (nameOf v).isSome = true)) →
      (List.foldlM (fun a x => insertM x a) acc l).isSome = true by
    exact hgen [] (by simp)
  induction l with
  | nil => intro acc _; rfl
  | cons x xs ih =>
    intro acc hacc
    rw [List.foldlM_cons]
    obtain ⟨acc', hacc'⟩ := Option.isSome_iff_exists.mp
      (insertM_isSome x acc (hl x (List.mem_cons_self _ _)) hacc)
    rw [hacc']
    have hnew : ∀ y ∈ acc', ∃ v, y.value = some v ∧ (v = [10] ∨ (nameOf v).isSome = true) := by
      intro y hy
      rcases List.mem_cons.mp ((insertM_perm x acc acc' hacc').mem_iff.mp hy) with h0 | ha
      · exact h0 ▸ hl x (List.mem_cons_self _ _)
      · exact hacc y ha
    exact ih (fun r hr => hl r (List.mem_cons_of_mem x hr)) acc' hnew

theorem serializeReqs_isSome (rv : Bool) (es : List Requirement)
    (h : ∀ r ∈ es, ∃ v, r.value = some v ∧ v ≠ [] ∧ (rv = true → utf8Valid v = true)) :
    (serializeReqs rv es).isSome = true := by
  induction es with
  | nil => rfl
  | cons r rs ih =>
    obtain ⟨v, hv, hne, hutf⟩ := h r (List.mem_cons_self _ _)
    have hrec := ih (fun q hq => h q (List.mem_cons_of_mem r hq))
    obtain ⟨p, hp⟩ := Option.isSome_iff_exists.mp hrec
    obtain ⟨ls, ms⟩ := p
    have hinc : (if rv then isIncludeV (some v) else some true).isSome = true := by
      cases hrv : rv with
      | false => rfl
      | true =>
        simp only [if_pos rfl]
        simp [isIncludeV, hne, hutf hrv]
    obtain ⟨inc, hinc'⟩ := Option.isSome_iff_exists.mp hinc
    simp [serializeReqs, hv, hne, hinc', hp]

/-- C6 as amended: `fix_requirements` computes an outcome whenever every
entry's name is extractable (the entry is the marker, or its lowered
content starts with a byte that is neither `;` nor whitespace, or it has
an egg reference) and, when `require_version` is set, every entry's
content is valid UTF-8; and name extraction falls back to the whole
truncated token when no comparison operator is found. -/
theorem claim_c6_amended (content : List Nat) (rv : Bool)
    (hname : ∀ r ∈ filteredReqs content,
      r.value.getD [] = [10] ∨ (nameOf (r.value.getD [])).isSome = true)
    (hutf : rv = true → ∀ r ∈ filteredReqs content,
      utf8Valid (r.value.getD []) = true) :
    (fixRequirements content rv).isSome = true ∧
    ∀ tok, cmpSearch tok = none → untilComparison tok = tok := by
  constructor
  · by_cases hb : isBlankLine content = true
    · simp [fixRequirements, hb]
    · obtain ⟨hv, hcnt, hshapes⟩ := filteredReqs_facts content
      have hgood : ∀ r ∈ filteredReqs content,
          ∃ v, r.value = some v ∧ (v = [10] ∨ (nameOf v).isSome = true) := by
        intro r hr
        obtain ⟨v, hvv⟩ := hv r hr
        refine ⟨v, hvv, ?_⟩
        have := hname r hr
        rwa [hvv, Option.getD_some] at this
      obtain ⟨es, hes⟩ := Option.isSome_iff_exists.mp (sortM_isSome _ hgood)
      have hesgood : ∀ r ∈ es, ∃ v, r.value = some v ∧ v ≠ [] ∧
          (rv = true → utf8Valid v = true) := by
        intro r hr
        have hrf : r ∈ filteredReqs content := (sortM_perm _ es hes).mem_iff.mp hr
        obtain ⟨v, hvv⟩ := hv r hrf
        refine ⟨v, hvv, valShape_ne_nil _ _ (hshapes r hrf).1 v hvv, ?_⟩
        intro hrv
        have := hutf hrv r hrf
        rwa [hvv, Option.getD_some] at this
      obtain ⟨p, hp⟩ := Option.isSome_iff_exists.mp (serializeReqs_isSome rv es hesgood)
      obtain ⟨ls, miss⟩ := p
      rcases fixRequirements_cases content rv with
        ⟨hb', _⟩ | ⟨_, hs', _⟩ | ⟨es', _, hs', hser', _⟩ |
        ⟨es', ls', miss', _, hs', hser', ⟨_, heq⟩ | ⟨_, heq⟩⟩
      · exact absurd hb' hb
      · rw [hes] at hs'; exact absurd hs' (by simp)
      · rw [hes] at hs'
        have : es' = es := (Option.some_inj.mp hs').symm
        subst this
        rw [hp] at hser'
        exact absurd hser' (by simp)
      · rw [heq]; rfl
      · rw [heq]; rfl
  · intro tok h
    simp [untilComparison, h]

/-- C6 witness: an ordinary well-formed file, with `require_version` off. -/
theorem claim_c6_witness :
    (fixRequirements (bs "foo\nbar\n") false).isSome = true ∧
    ∀ tok, cmpSearch tok = none → untilComparison tok = tok :=
  claim_c6_amended (bs "foo\nbar\n") false (by decide) (by decide)

/-!
## Claim C10: output lines come from input lines -/

/-- The serialized bytes of the sorted entries are also the join of a flat
line list, each line an input line or the marker line. -/
theorem blocks_flatten (lines : List (List Nat)) (es : List Requirement)
    (hes : ∀ q ∈ es, (∃ v, q.value = some v) ∧ ValShape lines q.value ∧
      ∀ c ∈ q.comments, c ∈ lines) :
    ∃ fl, joinL (blocksOf es) = joinL fl ∧ ∀ x ∈ fl, x ∈ lines ∨ x = [10] := by
  induction es with
  | nil => exact ⟨[], rfl, by simp⟩
  | cons q qs ih =>
    obtain ⟨⟨v, hv⟩, hshape, hcom⟩ := hes q (List.mem_cons_self _ _)
    obtain ⟨fl', hfl', hmem'⟩ := ih (fun x hx => hes x (List.mem_cons_of_mem q hx))
    have hblocks : blocksOf (q :: qs) = (q.comments ++ [v]) ++ blocksOf qs := by
      simp [blocksOf, entryBlock, hv]
    rcases ValShape_inv lines q.value hshape with h0 | h0 | ⟨vls, hne, h0, hmem, _, _⟩
    · rw [h0] at hv; exact absurd hv (by simp)
    · have hvm : v = [10] := by
        rw [h0] at hv; exact Option.some_inj.mp hv.symm
      refine ⟨q.comments ++ [[10]] ++ fl', ?_, ?_⟩
      · rw [hblocks, hvm]
        simp [joinL_append, joinL_cons, hfl']
      · intro x hx
        rcases List.mem_append.mp hx with hx1 | hx2
        · rcases List.mem_append.mp hx1 with hxc | hxm
          · exact Or.inl (hcom x hxc)
          · exact Or.inr (by simpa using hxm)
        · exact hmem' x hx2
    · have hvj : v = joinL vls := by
        rw [h0] at hv; exact Option.some_inj.mp hv.symm
      refine ⟨q.comments ++ vls ++ fl', ?_, ?_⟩
      · rw [hblocks, hvj]
        simp [joinL_append, joinL_single, joinL_cons, hfl']
      · intro x hx
        rcases List.mem_append.mp hx with hx1 | hx2
        · rcases List.mem_append.mp hx1 with hxc | hxv
          · exact Or.inl (hcom x hxc)
          · exact Or.inl (hmem x hxv)
        · exact hmem' x hx2

/-- C10: every physical line of a rewritten output is byte-for-byte an
input line (with the terminator fix applied to a final unterminated line)
or the synthetic top-of-file marker line `"\n"`. -/
theorem claim_c10 (content : List Nat) (rv : Bool) (r : FixResult)
    (h : fixRequirements content rv = some r) (hw : r.written = true) :
    ∀ l ∈ splitLines r.output, l ∈ beforeLines content ∨ l = [10] := by
  rcases fixRequirements_cases content rv with
    ⟨hb, heq⟩ | ⟨_, _, heq⟩ | ⟨es, _, _, _, heq⟩ |
    ⟨es, ls, miss, hb, hs, hser, ⟨hac, heq⟩ | ⟨hac, heq⟩⟩
  · rw [heq] at h
    have hr := Option.some_inj.mp h
    rw [← hr] at hw
    exact absurd hw (by simp)
  · rw [heq] at h; simp at h
  · rw [heq] at h; simp at h
  · rw [heq] at h
    have hr := Option.some_inj.mp h
    rw [← hr] at hw
    exact absurd hw (by simp)
  · rw [heq] at h
    have hr := Option.some_inj.mp h
    obtain ⟨hls, _, hvals⟩ := serializeReqs_shape rv es ls miss hser
    obtain ⟨_, _, hshapes⟩ := filteredReqs_facts content
    have hes : ∀ q ∈ es, (∃ v, q.value = some v) ∧
        ValShape (beforeLines content) q.value ∧
        ∀ c ∈ q.comments, c ∈ beforeLines content := by
      intro q hq
      have hqf : q ∈ filteredReqs content := (sortM_perm _ es hs).mem_iff.mp hq
      obtain ⟨v, hv, _⟩ := hvals q hq
      exact ⟨⟨v, hv⟩, (hshapes q hqf).1, fun c hc => ((hshapes q hqf).2 c hc).1⟩
    obtain ⟨fl, hfl, hmem⟩ := blocks_flatten (beforeLines content) es hes
    have hout : r.output = joinL (fl ++ restOf content) := by
      rw [← hr]
      simp only
      rw [hls, joinL_append, joinL_append, hfl]
    have hgoodAll : ∀l ∈ fl ++ restOf content, GoodLine l := by
      intro l hl
      rcases List.mem_append.mp hl with hlf | hlr
      · rcases hmem l hlf with hin | hmk
        · exact beforeLines_good content l hin
        · exact hmk ▸ goodLine_marker
      · exact beforeLines_good content l ((restOf_facts content l hlr).1)
    intro l hl
    rw [hout, splitLines_joinL _ hgoodAll] at hl
    rcases List.mem_append.mp hl with hlf | hlr
    · exact hmem l hlf
    · exact Or.inl ((restOf_facts content l hlr).1)

/-- C10 witness: a rewritten two-line file. -/
theorem claim_c10_witness :
    bs "a\n" ∈ beforeLines (bs "b\na\n") ∨ bs "a\n" = [10] :=
  claim_c10 (bs "b\na\n") false ⟨FAIL, bs "a\nb\n", true, []⟩ (by decide) (by decide)
    (bs "a\n") (by decide)

/-!
## Claim C3: reparsing the serialized output (machinery) -/

theorem step_fresh_comment (acc : List Requirement) (line : List Nat)
    (hcompl : acc = [] ∨ (∃ a0 t, acc = a0 :: t ∧ a0.isComplete = true))
    (hl : isCommentLine line = true ∨ isBlankLine line = true) :
    step acc line = ⟨none, [line]⟩ :: acc := by
  rcases hcompl with rfl | ⟨a0, t, rfl, ha0⟩
  · by_cases hb : isBlankLine line = true
    · simp [step, emptyReq, hb]
    · rcases hl with hc | hc
      · simp [step, emptyReq, hb, hc]
      · exact absurd hc hb
  · by_cases hb : isBlankLine line = true
    · simp [step, emptyReq, ha0, hb]
    · rcases hl with hc | hc
      · simp [step, emptyReq, ha0, hb, hc]
      · exact absurd hc hb

theorem step_cont_comment (r : Requirement) (acc : List Requirement) (line : List Nat)
    (hinc : r.isComplete = false)
    (hl : isCommentLine line = true ∨ isBlankLine line = true)
    (hsafe : isBlankLine line = true →
      acc ≠ [] ∨ r.comments = [] ∨ (r.comments.headD []).head? ≠ some 35) :
    step (r :: acc) line = ⟨r.value, r.comments ++ [line]⟩ :: acc := by
  by_cases hb : isBlankLine line = true
  · rcases hsafe hb with ha | hc | hh
    · cases acc with
      | nil => exact absurd rfl ha
      | cons b u => simp [step, hinc, hb]
    · cases acc with
      | nil => simp [step, hinc, hb, hc]
      | cons b u => simp [step, hinc, hb]
    · cases acc with
      | nil =>
        rw [List.headD_eq_head?_getD] at hh
        simp [step, hinc, hb]
        exact fun _ => hh
      | cons b u => simp [step, hinc, hb]
  · rcases hl with hc | hc
    · simp [step, hinc, hb, hc]
    · exact absurd hc hb

theorem step_marker (r : Requirement) (line : List Nat)
    (hinc : r.isComplete = false) (hbl : isBlankLine line = true)
    (hcm : r.comments ≠ []) (hhd : (r.comments.headD []).head? = some 35) :
    step [r] line = [⟨some [10], r.comments⟩] := by
  rw [List.headD_eq_head?_getD] at hhd
  simp [step, hinc, hbl, hcm, hhd]

theorem step_value (r : Requirement) (acc : List Requirement) (line : List Nat)
    (hinc : r.isComplete = false)
    (hc : isCommentLine line = false) (hb : isBlankLine line = false) :
    step (r :: acc) line = ⟨some ((r.value.getD []) ++ line), r.comments⟩ :: acc := by
  simp [step, hinc, hb, hc]

theorem step_fresh_value (acc : List Requirement) (line : List Nat)
    (hcompl : acc = [] ∨ (∃ a0 t, acc = a0 :: t ∧ a0.isComplete = true))
    (hc : isCommentLine line = false) (hb : isBlankLine line = false) :
    step acc line = ⟨some line, []⟩ :: acc := by
  rcases hcompl with rfl | ⟨a0, t, rfl, ha0⟩
  · simp [step, emptyReq, hb, hc]
  · simp [step, emptyReq, ha0, hb, hc]

/-- A continuation run: each intermediate accumulated value still ends in
a backslash, so the scan keeps appending. -/
inductive ContRun : List Nat → List (List Nat) → Prop
  | done (cur : List Nat) : ContRun cur []
  | more (cur x : List Nat) (tail : List (List Nat))
      (h92 : (rstripRN cur).getLast? = some 92)
      (h : ContRun (cur ++ x) tail) : ContRun cur (x :: tail)

theorem incomplete_of_92 (v : List Nat) (c : List (List Nat))
    (h : (rstripRN v).getLast? = some 92) :
    (⟨some v, c⟩ : Requirement).isComplete = false := by
  simp [Requirement.isComplete, h]

theorem complete_of_ne92 (v : List Nat) (c : List (List Nat))
    (h : (rstripRN v).getLast? ≠ some 92) :
    (⟨some v, c⟩ : Requirement).isComplete = true := by
  simp [Requirement.isComplete, h]

/-- Scanning the continuation lines of a value accumulates them all into
the open requirement. -/
theorem parse_values_cont (vtail : List (List Nat)) (cur : List Nat)
    (hcont : ContRun cur vtail)
    (hgood : ∀ x ∈ vtail, isCommentLine x = false ∧ isBlankLine x = false) :
    ∀ (c : List (List Nat)) (acc : List Requirement),
      List.foldl step (⟨some cur, c⟩ :: acc) vtail =
        ⟨some (cur ++ joinL vtail), c⟩ :: acc := by
  induction hcont with
  | done cur => intro c acc; simp [joinL]
  | more cur x tail h92 hc ih =>
    intro c acc
    rw [List.foldl_cons,
      step_value ⟨some cur, c⟩ acc x (incomplete_of_92 cur c h92)
        (hgood x (List.mem_cons_self _ _)).1 (hgood x (List.mem_cons_self _ _)).2]
    simp only [Option.getD_some]
    rw [ih (fun y hy => hgood y (List.mem_cons_of_mem x hy)) c acc]
    rw [joinL_cons, List.append_assoc]

/-- Scanning comment lines onto an open requirement that is not alone in
the list (or whose comments cannot trigger the marker) appends them all. -/
theorem parse_comments_cont (cs : List (List Nat))
    (hcs : ∀ x ∈ cs, isCommentLine x = true ∨ isBlankLine x = true) :
    ∀ (r : Requirement) (b : Requirement) (u : List Requirement),
      r.value = none →
      List.foldl step (r :: b :: u) cs =
        ⟨none, r.comments ++ cs⟩ :: b :: u := by
  induction cs with
  | nil =>
    intro r b u hvr
    cases r with
    | mk v c => simp at hvr; subst hvr; simp
  | cons x cs' ih =>
    intro r b u hvr
    rw [List.foldl_cons,
      step_cont_comment r (b :: u) x (isComplete_none r hvr)
        (hcs x (List.mem_cons_self _ _)) (fun _ => Or.inl (by simp))]
    rw [hvr, ih (fun y hy => hcs y (List.mem_cons_of_mem x hy))
      ⟨none, r.comments ++ [x]⟩ b u rfl]
    simp

/-- Scanning comment lines onto a lone open comment-only requirement with
a fixed nonempty comment list: safe as long as a blank line cannot create
the marker (first comment does not start with `#`, or no blanks at all). -/
theorem parse_comments_len1 (cs : List (List Nat))
    (hcs : ∀ x ∈ cs, isCommentLine x = true ∨ isBlankLine x = true) :
    ∀ (co : List (List Nat)), co ≠ [] →
      ((∃ x ∈ cs, isBlankLine x = true) → (co.headD []).head? ≠ some 35) →
      List.foldl step [⟨none, co⟩] cs = [⟨none, co ++ cs⟩] := by
  induction cs with
  | nil => intro co _ _; simp
  | cons x cs' ih =>
    intro co hco hsafe
    rw [List.foldl_cons,
      step_cont_comment ⟨none, co⟩ [] x (isComplete_none _ rfl)
        (hcs x (List.mem_cons_self _ _))
        (fun hbx => Or.inr (Or.inr (hsafe ⟨x, List.mem_cons_self _ _, hbx⟩)))]
    simp only
    rw [ih (fun y hy => hcs y (List.mem_cons_of_mem x hy)) (co ++ [x]) (by simp)
      (fun hex => by
        rw [List.headD_eq_head?_getD, List.head?_append_of_ne_nil _ hco]
        rw [List.headD_eq_head?_getD] at hsafe
        exact hsafe ⟨hex.choose, List.mem_cons_of_mem x hex.choose_spec.1,
          hex.choose_spec.2⟩)]
    simp

/-- Scanning a run of comment lines after a complete requirement opens a
fresh comment-only requirement holding all of them. -/
theorem parse_comments_after (cs : List (List Nat))
    (hcs : ∀ x ∈ cs, isCommentLine x = true ∨ isBlankLine x = true)
    (acc : List Requirement) (a0 : Requirement) (t : List Requirement)
    (hacc : acc = a0 :: t) (ha0 : a0.isComplete = true) :
    List.foldl step acc cs = if cs = [] then acc else ⟨none, cs⟩ :: acc := by
  cases cs with
  | nil => simp
  | cons c0 cs' =>
    rw [if_neg (by simp)]
    rw [List.foldl_cons,
      step_fresh_comment acc c0 (Or.inr ⟨a0, t, hacc, ha0⟩)
        (hcs c0 (List.mem_cons_self _ _))]
    subst hacc
    rw [parse_comments_cont cs' (fun y hy => hcs y (List.mem_cons_of_mem c0 hy))
      ⟨none, [c0]⟩ a0 t rfl]
    simp

/-- One serialized entry block (comments, then value lines) parsed after a
complete requirement reconstructs exactly that entry. -/
theorem parse_one_block (c : List (List Nat)) (x0 : List Nat)
    (vtail : List (List Nat))
    (hcm : ∀ x ∈ c, isCommentLine x = true ∨ isBlankLine x = true)
    (hg0 : isCommentLine x0 = false ∧ isBlankLine x0 = false)
    (hgt : ∀ x ∈ vtail, isCommentLine x = false ∧ isBlankLine x = false)
    (hcont : ContRun x0 vtail)
    (acc : List Requirement) (a0 : Requirement) (t : List Requirement)
    (hacc : acc = a0 :: t) (ha0 : a0.isComplete = true) :
    List.foldl step acc (c ++ x0 :: vtail) =
      ⟨some (joinL (x0 :: vtail)), c⟩ :: acc := by
  rw [List.foldl_append]
  rw [parse_comments_after c hcm acc a0 t hacc ha0]
  by_cases hc : c = []
  · rw [if_pos hc]
    rw [List.foldl_cons, step_fresh_value acc x0 (Or.inr ⟨a0, t, hacc, ha0⟩) hg0.1 hg0.2]
    rw [parse_values_cont vtail x0 hcont hgt [] acc]
    rw [hc, joinL_cons]
  · rw [if_neg hc]
    rw [List.foldl_cons, step_value ⟨none, c⟩ acc x0 (isComplete_none _ rfl) hg0.1 hg0.2]
    simp only [Option.getD_none, List.nil_append]
    rw [parse_values_cont vtail x0 hcont hgt c acc, joinL_cons]

/-- The top-of-file marker block at the start of the file re-creates the
marker entry. -/
theorem parse_first_marker (c : List (List Nat)) (hcne : c ≠ [])
    (hcm : ∀ x ∈ c, isCommentLine x = true ∧ isBlankLine x = false)
    (hc0 : (c.headD []).head? = some 35) :
    List.foldl step [] (c ++ [[10]]) = [⟨some [10], c⟩] := by
  rw [List.foldl_append]
  cases c with
  | nil => exact absurd rfl hcne
  | cons c0 cs =>
    have hfc : List.foldl step [] (c0 :: cs) = [⟨none, c0 :: cs⟩] := by
      rw [List.foldl_cons,
        step_fresh_comment [] c0 (Or.inl rfl)
          (Or.inl (hcm c0 (List.mem_cons_self _ _)).1)]
      rw [parse_comments_len1 cs
        (fun y hy => Or.inl (hcm y (List.mem_cons_of_mem c0 hy)).1)
        [c0] (by simp)
        (fun hex => absurd hex.choose_spec.2
          (by rw [(hcm _ (List.mem_cons_of_mem c0 hex.choose_spec.1)).2]; simp))]
      simp
    rw [hfc, List.foldl_cons,
      step_marker ⟨none, c0 :: cs⟩ [10] (isComplete_none _ rfl) (by decide)
        (by simp) (by simpa using hc0)]
    simp

/-- Whether the first entry's comment block re-parses without creating a
marker: either its first comment does not start with `#`, or it contains
no blank line. -/
def NoSplit (c : List (List Nat)) : Prop :=
  (c.headD []).head? ≠ some 35 ∨ ∀ x ∈ c, isBlankLine x = false

/-- A comment run at the very start of the file that cannot create the
marker opens a comment-only requirement holding all of it. -/
theorem parse_first_comments (cs : List (List Nat)) (hne : cs ≠ [])
    (hcs : ∀ x ∈ cs, isCommentLine x = true ∨ isBlankLine x = true)
    (hnos : NoSplit cs) :
    List.foldl step [] cs = [⟨none, cs⟩] := by
  cases cs with
  | nil => exact absurd rfl hne
  | cons c0 cs' =>
    rw [List.foldl_cons,
      step_fresh_comment [] c0 (Or.inl rfl) (hcs c0 (List.mem_cons_self _ _))]
    rw [parse_comments_len1 cs' (fun y hy => hcs y (List.mem_cons_of_mem c0 hy))
      [c0] (by simp) ?_]
    · simp
    · intro hex
      rcases hnos with hh | hnb
      · simpa using hh
      · exact absurd hex.choose_spec.2
          (by rw [hnb _ (List.mem_cons_of_mem c0 hex.choose_spec.1)]; simp)

/-- The first entry block of the output, when its comments cannot split,
reconstructs the entry exactly. -/
theorem parse_first_normal (c : List (List Nat)) (x0 : List Nat)
    (vtail : List (List Nat))
    (hcm : ∀ x ∈ c, isCommentLine x = true ∨ isBlankLine x = true)
    (hnos : NoSplit c)
    (hg0 : isCommentLine x0 = false ∧ isBlankLine x0 = false)
    (hgt : ∀ x ∈ vtail, isCommentLine x = false ∧ isBlankLine x = false)
    (hcont : ContRun x0 vtail) :
    List.foldl step [] (c ++ x0 :: vtail) = [⟨some (joinL (x0 :: vtail)), c⟩] := by
  rw [List.foldl_append]
  by_cases hc : c = []
  · subst hc
    rw [List.foldl_nil, List.foldl_cons,
      step_fresh_value [] x0 (Or.inl rfl) hg0.1 hg0.2]
    rw [parse_values_cont vtail x0 hcont hgt [] [], joinL_cons]
  · rw [parse_first_comments c hc hcm hnos]
    rw [List.foldl_cons, step_value ⟨none, c⟩ [] x0 (isComplete_none _ rfl) hg0.1 hg0.2]
    simp only [Option.getD_none, List.nil_append]
    rw [parse_values_cont vtail x0 hcont hgt c [], joinL_cons]

/-- Decompose a comment run at its first blank line. -/
theorem first_blank_split (c : List (List Nat))
    (hex : ∃ x ∈ c, isBlankLine x = true) :
    ∃ c1 b c2, c = c1 ++ b :: c2 ∧ isBlankLine b = true ∧
      ∀ x ∈ c1, isBlankLine x = false := by
  induction c with
  | nil => simp at hex
  | cons x cs ih =>
    by_cases hb : isBlankLine x = true
    · exact ⟨[], x, cs, by simp, hb, by simp⟩
    · have hex' : ∃ y ∈ cs, isBlankLine y = true := by
        obtain ⟨y, hy, hby⟩ := hex
        rcases List.mem_cons.mp hy with h0 | hm
        · exact absurd (h0 ▸ hby) hb
        · exact ⟨y, hm, hby⟩
      obtain ⟨c1, b, c2, heq, hbb, hnb⟩ := ih hex'
      refine ⟨x :: c1, b, c2, by rw [heq]; rfl, hbb, ?_⟩
      intro z hz
      rcases List.mem_cons.mp hz with h0 | hm
      · subst h0
        cases hzb : isBlankLine z with
        | false => rfl
        | true => exact absurd hzb hb
      · exact hnb z hm

theorem contRun_of_pre (vls : List (List Nat))
    (hpre : ∀ i : Nat, i + 1 < vls.length →
      (rstripRN (joinL (vls.take (i + 1)))).getLast? = some 92) :
    ∀ (d : List (List Nat)) (k : Nat), 1 ≤ k → vls.drop k = d →
      ContRun (joinL (vls.take k)) d := by
  intro d
  induction d with
  | nil => intro k _ _; exact ContRun.done _
  | cons x tl ih =>
    intro k hk hd
    have hklt : k < vls.length := by
      by_contra hge
      push_neg at hge
      rw [List.drop_eq_nil_of_le hge] at hd
      exact List.noConfusion hd
    have hlenA : (vls.take k).length = k := by
      rw [List.length_take]
      omega
    have hsplit : vls = vls.take k ++ x :: tl := by
      conv_lhs => rw [← List.take_append_drop k vls]
      rw [hd]
    have h92 : (rstripRN (joinL (vls.take k))).getLast? = some 92 := by
      have hp := hpre (k - 1) (by omega)
      have hke : k - 1 + 1 = k := by omega
      rwa [hke] at hp
    refine ContRun.more _ x tl h92 ?_
    have htake : vls.take (k + 1) = vls.take k ++ [x] := by
      conv_lhs => rw [hsplit]
      rw [List.take_append_eq_append_take, hlenA]
      have h1 : k + 1 - k = 1 := by omega
      rw [h1]
      have h2 : (vls.take k).take (k + 1) = vls.take k := by
        apply List.take_of_length_le
        omega
      rw [h2]
      rfl
    have hdrop : vls.drop (k + 1) = tl := by
      conv_lhs => rw [hsplit]
      rw [List.drop_append_eq_append_drop, hlenA]
      have h1 : k + 1 - k = 1 := by omega
      rw [h1]
      have h2 : (vls.take k).drop (k + 1) = [] := by
        apply List.drop_eq_nil_of_le
        omega
      rw [h2]
      rfl
    have hrec := ih (k + 1) (by omega) hdrop
    rwa [htake, joinL_append, joinL_single] at hrec

/-- `FlatRel qs fl`: `fl` is the flat physical-line list of the serialized
blocks of the (non-marker, complete) entries `qs`. -/
inductive FlatRel (lines1 : List (List Nat)) : List Requirement → List (List Nat) → Prop
  | nil : FlatRel lines1 [] []
  | cons (q : Requirement) (qs : List Requirement) (x0 : List Nat)
      (vtail fl : List (List Nat))
      (hq : q.value = some (joinL (x0 :: vtail)))
      (hcm : ∀ x ∈ q.comments, isCommentLine x = true ∨ isBlankLine x = true)
      (hcmem : ∀ x ∈ q.comments, x ∈ lines1)
      (hg0 : isCommentLine x0 = false ∧ isBlankLine x0 = false)
      (hgt : ∀ x ∈ vtail, isCommentLine x = false ∧ isBlankLine x = false)
      (hvmem : ∀ x ∈ x0 :: vtail, x ∈ lines1)
      (hcont : ContRun x0 vtail)
      (hcomp : q.isComplete = true)
      (h : FlatRel lines1 qs fl) :
      FlatRel lines1 (q :: qs) ((q.comments ++ x0 :: vtail) ++ fl)

theorem parse_blocks_tail (lines1 : List (List Nat)) (qs : List Requirement)
    (fl : List (List Nat)) (hrel : FlatRel lines1 qs fl) :
    ∀ (acc : List Requirement) (a0 : Requirement) (t : List Requirement),
      acc = a0 :: t → a0.isComplete = true →
      List.foldl step acc fl = qs.reverse ++ acc := by
  induction hrel with
  | nil => intro acc a0 t _ _; simp
  | cons q qs x0 vtail fl hq hcm hcmem hg0 hgt hvmem hcont hcomp h ih =>
    intro acc a0 t hacc ha0
    rw [List.foldl_append]
    rw [parse_one_block q.comments x0 vtail hcm hg0 hgt hcont acc a0 t hacc ha0]
    have hqe : (⟨some (joinL (x0 :: vtail)), q.comments⟩ : Requirement) = q := by
      cases q with
      | mk qv qc =>
        simp only at hq
        simp [hq]
    rw [hqe, ih (q :: acc) q acc rfl hcomp]
    simp

theorem flatRel_join (lines1 : List (List Nat)) (qs : List Requirement)
    (fl : List (List Nat)) (h : FlatRel lines1 qs fl) :
    joinL (blocksOf qs) = joinL fl := by
  induction h with
  | nil => rfl
  | cons q qs x0 vtail fl hq hcm hcmem hg0 hgt hvmem hcont hcomp h ih =>
    simp only [blocksOf, entryBlock, hq, Option.getD_some]
    rw [joinL_append, joinL_append, joinL_append, joinL_single, ih, joinL_append,
      joinL_cons]

theorem flatRel_mem (lines1 : List (List Nat)) (qs : List Requirement)
    (fl : List (List Nat)) (h : FlatRel lines1 qs fl) :
    ∀ x ∈ fl, x ∈ lines1 := by
  induction h with
  | nil => simp
  | cons q qs x0 vtail fl hq hcm hcmem hg0 hgt hvmem hcont hcomp h ih =>
    intro x hx
    rcases List.mem_append.mp hx with hx1 | hx2
    · rcases List.mem_append.mp hx1 with hxc | hxv
      · exact hcmem x hxc
      · exact hvmem x hxv
    · exact ih x hx2

theorem flatRel_exists (lines1 : List (List Nat)) (qs : List Requirement)
    (hq : ∀ q ∈ qs, (∃ v, q.value = some v ∧ v ≠ [10]) ∧ ValShape lines1 q.value ∧
      q.isComplete = true ∧
      ∀ c ∈ q.comments, c ∈ lines1 ∧ (isCommentLine c = true ∨ isBlankLine c = true)) :
    ∃ fl, FlatRel lines1 qs fl := by
  induction qs with
  | nil => exact ⟨[], FlatRel.nil⟩
  | cons q qs' ih =>
    obtain ⟨⟨v, hv, hvm⟩, hshape, hcomp, hcomm⟩ := hq q (List.mem_cons_self _ _)
    obtain ⟨fl', hfl'⟩ := ih (fun z hz => hq z (List.mem_cons_of_mem q hz))
    rcases ValShape_inv lines1 q.value hshape with h0 | h0 | ⟨vls, hne, h0, hmem, hgood, hpre⟩
    · rw [h0] at hv; exact absurd hv (by simp)
    · rw [h0] at hv
      exact absurd (Option.some_inj.mp hv).symm hvm
    · cases vls with
      | nil => exact absurd rfl hne
      | cons x0 vtail =>
        have hcont : ContRun x0 vtail := by
          have hcr := contRun_of_pre (x0 :: vtail) hpre vtail 1 (by omega) rfl
          have ht1 : (x0 :: vtail).take 1 = [x0] := rfl
          rwa [ht1, joinL_single] at hcr
        exact ⟨(q.comments ++ x0 :: vtail) ++ fl',
          FlatRel.cons q qs' x0 vtail fl' h0
            (fun c hc => (hcomm c hc).2) (fun c hc => (hcomm c hc).1)
            (by
              have := hgood x0 (List.mem_cons_self _ _)
              exact this)
            (fun x hx => hgood x (List.mem_cons_of_mem x0 hx))
            hmem hcont hcomp hfl'⟩

theorem missSel_false (r : Requirement) : missSel false r = none := by
  cases hv : r.value with
  | none => simp [missSel, hv]
  | some v => simp [missSel, hv]

theorem serialize_false_miss (es : List Requirement) (ls miss : List (List Nat))
    (h : serializeReqs false es = some (ls, miss)) : miss = [] := by
  obtain ⟨_, hm, _⟩ := serializeReqs_shape false es ls miss h
  rw [hm]
  exact List.filterMap_eq_nil_iff.mpr (fun a _ => missSel_false a)

theorem beforeLines_of_good (ls : List (List Nat)) (h : ∀ l ∈ ls, GoodLine l) :
    beforeLines (joinL ls) = ls := by
  rcases beforeLines_eq (joinL ls) with ⟨hg, heq⟩ | ⟨l0, hg, ⟨hend, heq⟩ | ⟨hend, heq⟩⟩
  · rw [heq]
    rw [splitLines_joinL ls h] at hg
    exact (List.getLast?_eq_none_iff.mp hg).symm
  · rw [heq, splitLines_joinL ls h]
  · rw [splitLines_joinL ls h] at hg
    obtain ⟨init, hinit⟩ := getLast?_some_concat ls l0 hg
    obtain ⟨core, hcore, _⟩ := h l0 (hinit ▸ List.mem_append_right init (by simp))
    exact absurd (by rw [hcore]; exact List.getLast?_concat _) hend

theorem req_eta_val (q : Requirement) (v : Option (List Nat)) (hv : q.value = v) :
    (⟨v, q.comments⟩ : Requirement) = q := by
  cases q with
  | mk qv qc =>
    simp only at hv
    rw [← hv]

theorem isComplete_congr (r s : Requirement) (h : r.value = s.value) :
    r.isComplete = s.isComplete := by
  simp only [Requirement.isComplete, h]

theorem ltReq_to_marker (x m : Requirement) (vx : List Nat)
    (hx : x.value = some vx) (hne : vx ≠ [10]) (hm : m.value = some [10]) :
    ltReq x m = some false := by
  simp [ltReq, hx, hne, hm]

theorem ltReq_congr (a b a' b' : Requirement) (ha : a.value = a'.value)
    (hb : b.value = b'.value) : ltReq a b = ltReq a' b' := by
  unfold ltReq
  rw [ha, hb]

theorem filteredReqs_mem_parse (content : List Nat) (q : Requirement)
    (hq : q ∈ filteredReqs content) :
    q ∈ parseReqs (beforeLines content) ∧ ¬(q.value = some blkLine) := by
  unfold filteredReqs at hq
  refine ⟨(popRest_fst_sublist _).mem (List.mem_of_mem_filter hq), ?_⟩
  have := List.of_mem_filter hq
  simpa using this

/-- The first serialized entry block of the file, when its comments cannot
trigger the marker, reconstructs the whole entry list. -/
theorem parse_blocks_first (lines1 : List (List Nat)) (qs : List Requirement)
    (fl : List (List Nat)) (hrel : FlatRel lines1 qs fl)
    (hns : ∀ q qs', qs = q :: qs' → NoSplit q.comments) :
    List.foldl step [] fl = qs.reverse := by
  cases hrel with
  | nil => rfl
  | cons q qs' x0 vtail fl' hq hcm hcmem hg0 hgt hvmem hcont hcomp h =>
    rw [List.foldl_append]
    rw [parse_first_normal q.comments x0 vtail hcm (hns q qs' rfl) hg0 hgt hcont]
    rw [req_eta_val q (some (joinL (x0 :: vtail))) hq]
    rw [parse_blocks_tail lines1 qs' fl' h [q] q [] rfl hcomp]
    simp

/-- Appending the unsorted trailing comment block to an already-parsed
entry run yields the entries plus an optional trailing comment-only
requirement. -/
theorem parse_blocks_rest (E2 : List Requirement) (fl rest2 : List (List Nat))
    (hfold : List.foldl step [] fl = E2.reverse)
    (hne : E2 ≠ [])
    (hcompl : ∀ q ∈ E2, q.isComplete = true)
    (hrest : ∀ x ∈ rest2, isCommentLine x = true ∨ isBlankLine x = true) :
    parseReqs (fl ++ rest2) =
      E2 ++ (if rest2 = [] then [] else [⟨none, rest2⟩]) := by
  unfold parseReqs
  rw [List.foldl_append, hfold]
  cases hrev : E2.reverse with
  | nil => exact absurd (by simpa using congrArg List.reverse hrev) hne
  | cons a0 t =>
    have ha0 : a0 ∈ E2 := by
      rw [← List.mem_reverse, hrev]
      exact List.mem_cons_self _ _
    rw [parse_comments_after rest2 hrest (a0 :: t) a0 t rfl (hcompl a0 ha0)]
    by_cases hr2 : rest2 = []
    · rw [if_pos hr2, if_pos hr2, ← hrev]
      simp
    · rw [if_neg hr2, if_neg hr2, List.reverse_cons, ← hrev]
      simp

/-- The second run of `fix_requirements`: once the reparsed entry list is
the already-sorted `E2` plus the optional trailing comment block, the run
is a `PASS` fixpoint. -/
theorem second_run_pass (E2 : List Requirement) (rest2 : List (List Nat))
    (out : List Nat)
    (hb : isBlankLine out = false)
    (hout : joinL (blocksOf E2 ++ rest2) = out)
    (hparse : parseReqs (beforeLines out) =
      E2 ++ (if rest2 = [] then [] else [⟨none, rest2⟩]))
    (hvals : ∀ q ∈ E2, ∃ v, q.value = some v ∧ v ≠ [] ∧ v ≠ blkLine)
    (hpw : List.Pairwise sortRel E2) :
    fixRequirements out false = some ⟨PASS, out, false, []⟩ := by
  have hpop : popRest (parseReqs (beforeLines out)) = (E2, rest2) := by
    rw [hparse]
    by_cases hr2 : rest2 = []
    · rw [if_pos hr2, List.append_nil]
      subst hr2
      cases hE : E2.getLast? with
      | none =>
        rw [List.getLast?_eq_none_iff.mp hE]
        rfl
      | some q =>
        have hq : q ∈ E2 := by
          obtain ⟨init, hinit⟩ := getLast?_some_concat E2 q hE
          exact hinit ▸ List.mem_append_right init (by simp)
        obtain ⟨v, hv, _, _⟩ := hvals q hq
        simp only [popRest, hE]
        rw [if_neg (by simp [hv])]
    · rw [if_neg hr2]
      simp only [popRest, List.getLast?_concat]
      rw [if_pos trivial, List.dropLast_concat]
  have hfilt : filteredReqs out = E2 := by
    unfold filteredReqs
    rw [hpop]
    apply List.filter_eq_self.mpr
    intro a ha
    obtain ⟨v, hv, _, hvb⟩ := hvals a ha
    simp [hv, hvb]
  have hrest : restOf out = rest2 := by
    unfold restOf
    rw [hpop]
  have hsort : sortM (filteredReqs out) = some E2 := by
    rw [hfilt]
    exact sortM_of_pairwise E2 hpw
  have hsome := serializeReqs_isSome false E2 (fun q hq => by
    obtain ⟨v, hv, hvne, _⟩ := hvals q hq
    exact ⟨v, hv, hvne, fun hc => absurd hc (by decide)⟩)
  obtain ⟨p, hp⟩ := Option.isSome_iff_exists.mp hsome
  obtain ⟨ls2, miss2⟩ := p
  obtain ⟨hls2, _, _⟩ := serializeReqs_shape false E2 ls2 miss2 hp
  have hm2 : miss2 = [] := serialize_false_miss E2 ls2 miss2 hp
  subst hm2
  have hafter : joinL (ls2 ++ restOf out) = out := by
    rw [hls2, hrest, hout]
  simp [fixRequirements, hb, hsort, hp, hafter]

/-- Everything the reparse argument needs to know about the sorted entry
list of the first run. -/
structure EsFacts (content : List Nat) (es : List Requirement) : Prop where
  vals : ∀ q ∈ es, ∃ v, q.value = some v ∧ v ≠ [] ∧ v ≠ blkLine
  shape : ∀ q ∈ es, ValShape (beforeLines content) q.value
  compl : ∀ q ∈ es, q.isComplete = true
  comms : ∀ q ∈ es, ∀ c ∈ q.comments,
    c ∈ beforeLines content ∧ (isCommentLine c = true ∨ isBlankLine c = true)
  pw : List.Pairwise sortRel es
  inparse : ∀ q ∈ es, q ∈ parseReqs (beforeLines content)
  cnt : es.countP isMarkerReq ≤ 1
  markhd : ∀ q ∈ es, q.value = some [10] →
    ∃ hd tl, es = hd :: tl ∧ hd.value = some [10]

theorem esFacts_of (content : List Nat) (es : List Requirement)
    (hs : sortM (filteredReqs content) = some es)
    (hcomp : ∀ q ∈ parseReqs (beforeLines content), q.isComplete = true) :
    EsFacts content es := by
  obtain ⟨hvF, hcntF, hshF⟩ := filteredReqs_facts content
  have hperm := sortM_perm _ es hs
  have hchain : List.Chain' sortRel es := (sortM_spec _ es hs hvF hcntF).2.1
  have hmemF : ∀ q ∈ es, q ∈ filteredReqs content := fun q hq => hperm.mem_iff.mp hq
  refine ⟨?_, ?_, ?_, ?_, List.chain'_iff_pairwise.mp hchain, ?_, ?_, ?_⟩
  · intro q hq
    have hqf := hmemF q hq
    obtain ⟨hqp, hqnb⟩ := filteredReqs_mem_parse content q hqf
    obtain ⟨v, hv⟩ := hvF q hqf
    refine ⟨v, hv, valShape_ne_nil _ _ (hshF q hqf).1 v hv, ?_⟩
    intro hvb
    exact hqnb (by rw [hv, hvb])
  · intro q hq
    exact (hshF q (hmemF q hq)).1
  · intro q hq
    exact hcomp q (filteredReqs_mem_parse content q (hmemF q hq)).1
  · intro q hq
    exact (hshF q (hmemF q hq)).2
  · intro q hq
    exact (filteredReqs_mem_parse content q (hmemF q hq)).1
  · rw [hperm.countP_eq]
    exact hcntF
  · intro q hq hqm
    exact sortM_marker_head _ es hs hchain q (hmemF q hq) hqm

/-- Reparsing an output consisting only of the trailing comment block. -/
theorem reparse_empty (content : List Nat) (out : List Nat)
    (hblank : ∀ l ∈ beforeLines content, isBlankLine l = true → l = [10])
    (hb : isBlankLine out = false)
    (hout : joinL (restOf content) = out)
    (hrne : restOf content ≠ []) :
    fixRequirements out false = some ⟨PASS, out, false, []⟩ := by
  have hrest := restOf_facts content
  have hgood : ∀ l ∈ restOf content, GoodLine l :=
    fun l hl => beforeLines_good content l (hrest l hl).1
  have hbefore : beforeLines out = restOf content := by
    rw [← hout]
    exact beforeLines_of_good _ hgood
  have hcb : ∀ x ∈ restOf content, isCommentLine x = true ∨ isBlankLine x = true :=
    fun x hx => (hrest x hx).2
  by_cases hns : NoSplit (restOf content)
  · have hparse : parseReqs (beforeLines out) =
        ([] : List Requirement) ++
          (if restOf content = [] then [] else [⟨none, restOf content⟩]) := by
      rw [hbefore, if_neg hrne]
      unfold parseReqs
      rw [parse_first_comments (restOf content) hrne hcb hns]
      rfl
    refine second_run_pass [] (restOf content) out hb ?_ hparse (by simp) (by simp)
    simpa [blocksOf] using hout
  · have hhd : ((restOf content).headD []).head? = some 35 ∧
        ∃ x ∈ restOf content, isBlankLine x = true := by
      unfold NoSplit at hns
      push_neg at hns
      obtain ⟨h1, x, hx, hbx⟩ := hns
      exact ⟨h1, x, hx, by simpa using hbx⟩
    obtain ⟨c1, b, c2, hc0, hbb, hc1nb⟩ := first_blank_split _ hhd.2
    have hbm : b ∈ restOf content := by
      rw [hc0]
      exact List.mem_append_right c1 (List.mem_cons_self _ _)
    have hb10 : b = [10] := hblank b (hrest b hbm).1 hbb
    subst hb10
    have hc1ne : c1 ≠ [] := by
      intro hc1e
      have h35 := hhd.1
      rw [hc0, hc1e, List.nil_append] at h35
      simp at h35
    have hc1facts : ∀ x ∈ c1, isCommentLine x = true ∧ isBlankLine x = false := by
      intro x hx
      have hmem : x ∈ restOf content := by
        rw [hc0]
        exact List.mem_append_left _ hx
      rcases hcb x hmem with hc | hbl
      · exact ⟨hc, hc1nb x hx⟩
      · exact absurd hbl (by rw [hc1nb x hx]; simp)
    have hc1hd : (c1.headD []).head? = some 35 := by
      have h35 := hhd.1
      rw [hc0, List.headD_eq_head?_getD, List.head?_append_of_ne_nil _ hc1ne] at h35
      rwa [List.headD_eq_head?_getD]
    have hfold : List.foldl step [] (c1 ++ [[10]]) =
        ([⟨some [10], c1⟩] : List Requirement).reverse := by
      rw [parse_first_marker c1 hc1ne hc1facts hc1hd]
      rfl
    have hparse : parseReqs (beforeLines out) =
        ([⟨some [10], c1⟩] : List Requirement) ++
          (if c2 = [] then [] else [⟨none, c2⟩]) := by
      rw [hbefore, hc0, show c1 ++ [10] :: c2 = (c1 ++ [[10]]) ++ c2 by simp]
      exact parse_blocks_rest [⟨some [10], c1⟩] (c1 ++ [[10]]) c2 hfold (by simp)
        (fun q hq => by
          have hq' : q = ⟨some [10], c1⟩ := by simpa using hq
          subst hq'
          exact isComplete_marker _ rfl)
        (fun x hx => hcb x (by
          rw [hc0]
          exact List.mem_append_right c1 (List.mem_cons_of_mem _ hx)))
    refine second_run_pass [⟨some [10], c1⟩] c2 out hb ?_ hparse ?_ (by simp)
    · rw [← hout, hc0]
      congr 1
      simp [blocksOf, entryBlock]
    · intro q hq
      have hq' : q = ⟨some [10], c1⟩ := by simpa using hq
      subst hq'
      exact ⟨[10], rfl, by decide, by decide⟩

theorem flatRel_cons_inv (lines1 : List (List Nat)) (q : Requirement)
    (qs : List Requirement) (fl : List (List Nat))
    (h : FlatRel lines1 (q :: qs) fl) :
    ∃ x0 vtail flT, fl = (q.comments ++ x0 :: vtail) ++ flT ∧
      q.value = some (joinL (x0 :: vtail)) ∧
      (isCommentLine x0 = false ∧ isBlankLine x0 = false) ∧
      (∀ x ∈ vtail, isCommentLine x = false ∧ isBlankLine x = false) ∧
      (∀ x ∈ x0 :: vtail, x ∈ lines1) ∧
      ContRun x0 vtail ∧ FlatRel lines1 qs flT := by
  cases h with
  | cons q qs x0 vtail fl hq hcm hcmem hg0 hgt hvmem hcont hcomp h =>
    exact ⟨x0, vtail, fl, rfl, hq, hg0, hgt, hvmem, hcont, h⟩

/-- Reparsing an output whose sorted entry list is nonempty. -/
theorem reparse_nonempty (content : List Nat) (e0 : Requirement)
    (etail : List Requirement)
    (hf : EsFacts content (e0 :: etail))
    (hblank : ∀ l ∈ beforeLines content, isBlankLine l = true → l = [10])
    (out : List Nat)
    (hb : isBlankLine out = false)
    (hout : joinL (blocksOf (e0 :: etail) ++ restOf content) = out) :
    fixRequirements out false = some ⟨PASS, out, false, []⟩ := by
  have hrest := restOf_facts content
  have hrcb : ∀ x ∈ restOf content, isCommentLine x = true ∨ isBlankLine x = true :=
    fun x hx => (hrest x hx).2
  have hrgood : ∀ l ∈ restOf content, GoodLine l :=
    fun l hl => beforeLines_good content l (hrest l hl).1
  by_cases hm : e0.value = some [10]
  · -- the head entry is the top-of-file marker
    have hmk := (parseReqs_mem_facts (beforeLines content) e0
      (hf.inparse e0 (List.mem_cons_self _ _))).2.2 hm
    have hcm_all : ∀ x ∈ e0.comments,
        isCommentLine x = true ∧ isBlankLine x = false := by
      intro x hx
      rcases (hf.comms e0 (List.mem_cons_self _ _) x hx).2 with hc | hbl
      · exact ⟨hc, hmk.2.2 x hx⟩
      · exact absurd hbl (by rw [hmk.2.2 x hx]; simp)
    have hnomt : ∀ q ∈ etail, q.value ≠ some [10] := by
      have hcnt := hf.cnt
      have he0m : isMarkerReq e0 = true := by simp [isMarkerReq, hm]
      simp only [List.countP_cons] at hcnt
      rw [if_pos he0m] at hcnt
      have hz : etail.countP isMarkerReq = 0 := by omega
      intro q hq hqm
      exact absurd (by simp [isMarkerReq, hqm]) (List.countP_eq_zero.mp hz q hq)
    obtain ⟨flT, hflT⟩ := flatRel_exists (beforeLines content) etail (fun q hq => by
      obtain ⟨v, hv, hvne, hvb⟩ := hf.vals q (List.mem_cons_of_mem e0 hq)
      refine ⟨⟨v, hv, ?_⟩, hf.shape q (List.mem_cons_of_mem e0 hq),
        hf.compl q (List.mem_cons_of_mem e0 hq),
        fun c hc => hf.comms q (List.mem_cons_of_mem e0 hq) c hc⟩
      intro hv10
      exact hnomt q hq (by rw [hv, hv10]))
    have hjoinT := flatRel_join _ etail flT hflT
    have hmemT := flatRel_mem _ etail flT hflT
    have hfold : List.foldl step [] ((e0.comments ++ [[10]]) ++ flT) =
        (e0 :: etail).reverse := by
      rw [List.foldl_append, parse_first_marker e0.comments hmk.1 hcm_all hmk.2.1]
      rw [req_eta_val e0 (some [10]) hm]
      rw [parse_blocks_tail _ etail flT hflT [e0] e0 [] rfl (isComplete_marker e0 hm)]
      simp
    have houtflat : out = joinL (((e0.comments ++ [[10]]) ++ flT)
        ++ restOf content) := by
      rw [← hout, joinL_append, joinL_append]
      congr 1
      rw [show blocksOf (e0 :: etail) = entryBlock e0 ++ blocksOf etail from rfl]
      rw [joinL_append, joinL_append, hjoinT]
      congr 1
      simp [entryBlock, hm]
    have hgoodflat : ∀ l ∈ ((e0.comments ++ [[10]]) ++ flT) ++ restOf content,
        GoodLine l := by
      intro l hl
      rcases List.mem_append.mp hl with h1 | h2
      · rcases List.mem_append.mp h1 with h3 | h4
        · rcases List.mem_append.mp h3 with h5 | h6
          · exact beforeLines_good content l
              (hf.comms e0 (List.mem_cons_self _ _) l h5).1
          · have hl10 : l = [10] := by simpa using h6
            rw [hl10]
            exact goodLine_marker
        · exact beforeLines_good content l (hmemT l h4)
      · exact hrgood l h2
    have hparse : parseReqs (beforeLines out) = (e0 :: etail) ++
        (if restOf content = [] then [] else [⟨none, restOf content⟩]) := by
      rw [show beforeLines out = ((e0.comments ++ [[10]]) ++ flT) ++ restOf content by
        rw [houtflat]; exact beforeLines_of_good _ hgoodflat]
      exact parse_blocks_rest (e0 :: etail) _ (restOf content) hfold (by simp)
        hf.compl hrcb
    exact second_run_pass (e0 :: etail) (restOf content) out hb hout hparse
      hf.vals hf.pw
  · -- the head entry is an ordinary requirement
    have hnomark : ∀ q ∈ e0 :: etail, q.value ≠ some [10] := by
      intro q hq hqm
      obtain ⟨hd, tl, hes, hhd⟩ := hf.markhd q hq hqm
      injection hes with h1 h2
      exact hm (h1 ▸ hhd)
    obtain ⟨fl, hfl⟩ := flatRel_exists (beforeLines content) (e0 :: etail)
      (fun q hq => by
        obtain ⟨v, hv, hvne, hvb⟩ := hf.vals q hq
        exact ⟨⟨v, hv, fun hv10 => hnomark q hq (by rw [hv, hv10])⟩,
          hf.shape q hq, hf.compl q hq, fun c hc => hf.comms q hq c hc⟩)
    have hjoinA := flatRel_join _ _ fl hfl
    have hmemA := flatRel_mem _ _ fl hfl
    by_cases hns : NoSplit e0.comments
    · -- the head entry reconstructs unchanged
      have hfold := parse_blocks_first _ _ fl hfl (fun q qs' hqq => by
        injection hqq with h1 h2
        rw [← h1]
        exact hns)
      have houtflat : out = joinL (fl ++ restOf content) := by
        rw [← hout, joinL_append, joinL_append, hjoinA]
      have hgoodflat : ∀ l ∈ fl ++ restOf content, GoodLine l := by
        intro l hl
        rcases List.mem_append.mp hl with h1 | h2
        · exact beforeLines_good content l (hmemA l h1)
        · exact hrgood l h2
      have hparse : parseReqs (beforeLines out) = (e0 :: etail) ++
          (if restOf content = [] then [] else [⟨none, restOf content⟩]) := by
        rw [show beforeLines out = fl ++ restOf content by
          rw [houtflat]; exact beforeLines_of_good _ hgoodflat]
        exact parse_blocks_rest (e0 :: etail) fl (restOf content) hfold (by simp)
          hf.compl hrcb
      exact second_run_pass (e0 :: etail) (restOf content) out hb hout hparse
        hf.vals hf.pw
    · -- the head entry's comment block splits at its first blank line
      obtain ⟨x0, vtail, flT, hfleq, hq, hg0, hgt, hvmem, hcont, hrelT⟩ :=
        flatRel_cons_inv _ e0 etail fl hfl
      have hcomms := hf.comms e0 (List.mem_cons_self _ _)
      have hhd : ((e0.comments.headD []).head? = some 35) ∧
          ∃ x ∈ e0.comments, isBlankLine x = true := by
        unfold NoSplit at hns
        push_neg at hns
        obtain ⟨h1, x, hx, hbx⟩ := hns
        exact ⟨h1, x, hx, by simpa using hbx⟩
      obtain ⟨c1, b, c2, hc0, hbb, hc1nb⟩ := first_blank_split _ hhd.2
      have hbm : b ∈ e0.comments := by
        rw [hc0]
        exact List.mem_append_right c1 (List.mem_cons_self _ _)
      have hb10 : b = [10] := hblank b (hcomms b hbm).1 hbb
      subst hb10
      have hc1ne : c1 ≠ [] := by
        intro hc1e
        have h35 := hhd.1
        rw [hc0, hc1e, List.nil_append] at h35
        simp at h35
      have hc1facts : ∀ x ∈ c1, isCommentLine x = true ∧ isBlankLine x = false := by
        intro x hx
        have hmemx : x ∈ e0.comments := by
          rw [hc0]
          exact List.mem_append_left _ hx
        rcases (hcomms x hmemx).2 with hc | hbl
        · exact ⟨hc, hc1nb x hx⟩
        · exact absurd hbl (by rw [hc1nb x hx]; simp)
      have hc1hd : (c1.headD []).head? = some 35 := by
        have h35 := hhd.1
        rw [hc0, List.headD_eq_head?_getD, List.head?_append_of_ne_nil _ hc1ne] at h35
        rwa [List.headD_eq_head?_getD]
      have hc2cb : ∀ x ∈ c2, isCommentLine x = true ∨ isBlankLine x = true := by
        intro x hx
        refine (hcomms x ?_).2
        rw [hc0]
        exact List.mem_append_right c1 (List.mem_cons_of_mem _ hx)
      have he1c : (⟨some (joinL (x0 :: vtail)), c2⟩ : Requirement).isComplete
          = true := by
        rw [isComplete_congr ⟨some (joinL (x0 :: vtail)), c2⟩ e0 (by rw [hq])]
        exact hf.compl e0 (List.mem_cons_self _ _)
      have hfold : List.foldl step []
          ((c1 ++ [[10]]) ++ ((c2 ++ x0 :: vtail) ++ flT)) =
          (⟨some [10], c1⟩ :: ⟨some (joinL (x0 :: vtail)), c2⟩ :: etail).reverse := by
        rw [List.foldl_append, parse_first_marker c1 hc1ne hc1facts hc1hd]
        rw [List.foldl_append]
        rw [parse_one_block c2 x0 vtail hc2cb hg0 hgt hcont _ _ [] rfl
          (isComplete_marker _ rfl)]
        rw [parse_blocks_tail _ etail flT hrelT _ _ [⟨some [10], c1⟩] rfl he1c]
        simp
      have houtflat : out = joinL (((c1 ++ [[10]]) ++ ((c2 ++ x0 :: vtail) ++ flT))
          ++ restOf content) := by
        rw [← hout, joinL_append, joinL_append, hjoinA, hfleq]
        congr 1
        rw [hc0]
        simp
      have hgoodflat : ∀ l ∈ ((c1 ++ [[10]]) ++ ((c2 ++ x0 :: vtail) ++ flT))
          ++ restOf content, GoodLine l := by
        intro l hl
        rcases List.mem_append.mp hl with h1 | h2
        · rcases List.mem_append.mp h1 with h3 | h4
          · rcases List.mem_append.mp h3 with h5 | h6
            · refine beforeLines_good content l (hcomms l ?_).1
              rw [hc0]
              exact List.mem_append_left _ h5
            · have hl10 : l = [10] := by simpa using h6
              rw [hl10]
              exact goodLine_marker
          · rcases List.mem_append.mp h4 with h7 | h8
            · rcases List.mem_append.mp h7 with h9 | h10
              · refine beforeLines_good content l (hcomms l ?_).1
                rw [hc0]
                exact List.mem_append_right c1 (List.mem_cons_of_mem _ h9)
              · refine beforeLines_good content l (hmemA l ?_)
                rw [hfleq]
                exact List.mem_append_left _ (List.mem_append_right _ h10)
            · refine beforeLines_good content l (hmemA l ?_)
              rw [hfleq]
              exact List.mem_append_right _ h8
        · exact hrgood l h2
      have hparse : parseReqs (beforeLines out) =
          (⟨some [10], c1⟩ :: ⟨some (joinL (x0 :: vtail)), c2⟩ :: etail) ++
          (if restOf content = [] then [] else [⟨none, restOf content⟩]) := by
        rw [show beforeLines out =
            ((c1 ++ [[10]]) ++ ((c2 ++ x0 :: vtail) ++ flT)) ++ restOf content by
          rw [houtflat]; exact beforeLines_of_good _ hgoodflat]
        refine parse_blocks_rest _ _ (restOf content) hfold (by simp) ?_ hrcb
        intro q hq2
        rcases List.mem_cons.mp hq2 with hq3 | hq4
        · rw [hq3]
          exact isComplete_marker _ rfl
        · rcases List.mem_cons.mp hq4 with hq5 | hq6
          · rw [hq5]
            exact he1c
          · exact hf.compl q (List.mem_cons_of_mem e0 hq6)
      have hvals2 : ∀ q ∈ (⟨some [10], c1⟩ :: ⟨some (joinL (x0 :: vtail)), c2⟩ ::
          etail : List Requirement), ∃ v, q.value = some v ∧ v ≠ [] ∧ v ≠ blkLine := by
        intro q hq2
        rcases List.mem_cons.mp hq2 with hq3 | hq4
        · rw [hq3]
          exact ⟨[10], rfl, by decide, by decide⟩
        · rcases List.mem_cons.mp hq4 with hq5 | hq6
          · obtain ⟨v, hv, hvne, hvb⟩ := hf.vals e0 (List.mem_cons_self _ _)
            have hvj : v = joinL (x0 :: vtail) := Option.some_inj.mp (hv.symm.trans hq)
            rw [hq5, ← hvj]
            exact ⟨v, rfl, hvne, hvb⟩
          · exact hf.vals q (List.mem_cons_of_mem e0 hq6)
      have hpw2 : List.Pairwise sortRel
          (⟨some [10], c1⟩ :: ⟨some (joinL (x0 :: vtail)), c2⟩ :: etail) := by
        obtain ⟨hpe0, hpt⟩ := List.pairwise_cons.mp hf.pw
        refine List.pairwise_cons.mpr ⟨?_, List.pairwise_cons.mpr ⟨?_, hpt⟩⟩
        · intro x hx
          unfold sortRel
          rcases List.mem_cons.mp hx with hx1 | hx2
          · refine ltReq_to_marker x _ (joinL (x0 :: vtail)) (by rw [hx1]) ?_ rfl
            intro hj10
            exact hm (by rw [hq, hj10])
          · obtain ⟨vx, hvx, _, _⟩ := hf.vals x (List.mem_cons_of_mem e0 hx2)
            refine ltReq_to_marker x _ vx hvx ?_ rfl
            intro hvx10
            exact hnomark x (List.mem_cons_of_mem e0 hx2) (by rw [hvx, hvx10])
        · intro x hx
          have hx0 := hpe0 x hx
          unfold sortRel at hx0 ⊢
          rw [ltReq_congr x ⟨some (joinL (x0 :: vtail)), c2⟩ x e0 rfl (by rw [hq])]
          exact hx0
      have hout2 : joinL (blocksOf (⟨some [10], c1⟩ ::
          ⟨some (joinL (x0 :: vtail)), c2⟩ :: etail) ++ restOf content) = out := by
        rw [← hout]
        congr 1
        congr 1
        simp [blocksOf, entryBlock, hc0, hq]
      exact second_run_pass _ (restOf content) out hb hout2 hparse hvals2 hpw2

/-- C3 (amended): `fix_requirements` is idempotent on the inputs where the
claim survives: provided every parsed entry of the input is complete (no
unfinished trailing line continuation) and every blank line of the input
is exactly a newline byte, running the normalizer (with `require_version`
disabled) a second time on the output bytes of the first run returns the
output unchanged with outcome `PASS` and no rewrite.  `claim_c3_cex` shows
the unrestricted claim is false. -/
theorem claim_c3_amended (content : List Nat) (r : FixResult)
    (h : fixRequirements content false = some r)
    (hcomp : ∀ q ∈ parseReqs (beforeLines content), q.isComplete = true)
    (hblank : ∀ l ∈ beforeLines content, isBlankLine l = true → l = [10]) :
    fixRequirements r.output false = some ⟨PASS, r.output, false, []⟩ := by
  rcases fixRequirements_cases content false with
    ⟨hbk, heq⟩ | ⟨_, _, heq⟩ | ⟨es, _, _, _, heq⟩ |
    ⟨es, ls, miss, hbk, hs, hser, ⟨hac, heq⟩ | ⟨hac, heq⟩⟩
  · rw [heq] at h
    have hr : r = ⟨PASS, content, false, []⟩ := (Option.some_inj.mp h).symm
    subst hr
    exact heq
  · rw [heq] at h
    simp at h
  · rw [heq] at h
    simp at h
  · have hmiss : miss = [] := serialize_false_miss es ls miss hser
    subst hmiss
    rw [heq] at h
    have hr : r = ⟨if ([] : List (List Nat)) = [] then PASS else FAIL,
        content, false, []⟩ := (Option.some_inj.mp h).symm
    subst hr
    show fixRequirements content false = some ⟨PASS, content, false, []⟩
    rw [heq]
    simp
  · have hmiss : miss = [] := serialize_false_miss es ls miss hser
    subst hmiss
    rw [heq] at h
    have hr : r = ⟨FAIL, joinL (ls ++ restOf content), true, []⟩ :=
      (Option.some_inj.mp h).symm
    subst hr
    show fixRequirements (joinL (ls ++ restOf content)) false =
      some ⟨PASS, joinL (ls ++ restOf content), false, []⟩
    by_cases hob : isBlankLine (joinL (ls ++ restOf content)) = true
    · simp [fixRequirements, hob]
    · have hob' : isBlankLine (joinL (ls ++ restOf content)) = false := by
        cases hx : isBlankLine (joinL (ls ++ restOf content)) with
        | true => exact absurd hx hob
        | false => rfl
      obtain ⟨hls, _, _⟩ := serializeReqs_shape false es ls [] hser
      have hfacts := esFacts_of content es hs hcomp
      cases es with
      | nil =>
        refine reparse_empty content _ hblank hob' ?_ ?_
        · rw [hls]
          rfl
        · intro hre
          rw [hls, hre] at hob'
          exact absurd hob' (by decide)
      | cons e0 etail =>
        refine reparse_nonempty content e0 etail hfacts hblank _ hob' ?_
        rw [hls]

/-- C3 witness: a two-line file that the first run reorders; the second
run passes it through unchanged. -/
theorem claim_c3_witness :
    fixRequirements ((⟨FAIL, bs "bar\nfoo\n", true, []⟩ : FixResult)).output false =
      some ⟨PASS, ((⟨FAIL, bs "bar\nfoo\n", true, []⟩ : FixResult)).output,
        false, []⟩ :=
  claim_c3_amended (bs "foo\nbar\n") ⟨FAIL, bs "bar\nfoo\n", true, []⟩
    (by decide) (by decide) (by decide)
